import Mathlib

/-!
Verification development for the photo-organizer hierarchical categorization
engine.  The definitions below are a shallow embedding of the Python source:

* `Category`, `CategoryTree` embed `photo_organizer/models/category.py` and
  `photo_organizer/models/category_tree.py`.  Python's `dict` (insertion
  ordered) is embedded as an association list `List (Nat × Category)`;
  Python `set`s become `Finset`s.  Category object mutation is embedded as
  explicit state passing on the owning tree: an operation such as
  `Category.add_child` that the program always applies to members of a tree
  becomes a tree transformer addressed by ids.  Code that raises becomes
  `Except String`.
* The categorization algorithms of
  `photo_organizer/services/categorization.py` follow further down.
-/

namespace PhotoOrganizer

/-- Embeds the dataclass `Category` of `models/category.py`: a single node
with identity, display name, parent reference, child-id set and member
image-id set.  Ids (Python uuid strings) are embedded as opaque `Nat`s;
image ids (path names) as `String`s. -/
structure Category where
  name : String
  description : String := ""
  tags : List String := []
  id : Nat
  parent_id : Option Nat := none
  child_ids : Finset Nat := ∅
  image_ids : Finset String := ∅
deriving DecidableEq

/-- Embeds `CategoryTree.__init__`: `_categories` is a Python dict, embedded
as an insertion-ordered association list; `_root_categories` is a set. -/
structure CategoryTree where
  categories : List (Nat × Category) := []
  root_categories : Finset Nat := ∅
deriving DecidableEq

/-- A sorted enumeration of a multiset of ids.  (Insertion sort, which
unlike `Multiset.sort`'s merge sort reduces inside the kernel, so concrete
runs of the embedded operations can be evaluated by `decide`.) -/
def msort (m : Multiset Nat) : List Nat :=
  Quot.liftOn m (fun l => List.insertionSort (· ≤ ·) l) (fun l1 l2 h =>
    List.eq_of_perm_of_sorted
      ((List.perm_insertionSort _ l1).trans (h.trans (List.perm_insertionSort _ l2).symm))
      (List.sorted_insertionSort _ l1) (List.sorted_insertionSort _ l2))

/-- The ascending enumeration of a finite set of ids, standing in for the
unspecified iteration order of a Python `set`. -/
def sort_ids (s : Finset Nat) : List Nat :=
  msort s.val

theorem msort_coe (m : Multiset Nat) : (msort m : Multiset Nat) = m :=
  Quot.inductionOn m fun l => Quot.sound (List.perm_insertionSort _ l)

theorem mem_sort_ids {s : Finset Nat} {k : Nat} : k ∈ sort_ids s ↔ k ∈ s := by
  rw [← Multiset.mem_coe, sort_ids, msort_coe]
  rfl

theorem sort_ids_nodup (s : Finset Nat) : (sort_ids s).Nodup := by
  have h : ((sort_ids s : List Nat) : Multiset Nat).Nodup := by
    rw [sort_ids, msort_coe]
    exact s.nodup
  exact Multiset.coe_nodup.mp h

/-- Field update used when a category gains a child id. -/
def insert_child (i : Nat) (c : Category) : Category :=
  { c with child_ids := insert i c.child_ids }

/-- Field update used when a category loses a child id. -/
def erase_child (i : Nat) (c : Category) : Category :=
  { c with child_ids := c.child_ids.erase i }

/-- Field update used when a category's parent link is cleared. -/
def clear_parent (c : Category) : Category :=
  { c with parent_id := none }

/-- Field update used when a category's parent link is set. -/
def set_parent (p : Nat) (c : Category) : Category :=
  { c with parent_id := some p }

/-- Field update used when a category absorbs a set of images. -/
def add_images (s : Finset String) (c : Category) : Category :=
  { c with image_ids := c.image_ids ∪ s }

instance {ε α : Type} [DecidableEq ε] [DecidableEq α] : DecidableEq (Except ε α) := fun x y =>
  match x, y with
  | .ok a, .ok b =>
    if h : a = b then isTrue (by rw [h]) else isFalse (by intro hh; cases hh; exact h rfl)
  | .error a, .error b =>
    if h : a = b then isTrue (by rw [h]) else isFalse (by intro hh; cases hh; exact h rfl)
  | .ok _, .error _ => isFalse (by intro hh; cases hh)
  | .error _, .ok _ => isFalse (by intro hh; cases hh)

namespace CategoryTree

/-- Embeds Python dict lookup `self._categories.get(category_id)`
(also `CategoryTree.get_category`). -/
def find? (t : CategoryTree) (i : Nat) : Option Category :=
  (t.categories.find? (fun p => p.1 == i)).map (fun p => p.2)

/-- The key list of the category dict. -/
def keys (t : CategoryTree) : List Nat :=
  t.categories.map (fun p => p.1)

/-- Embeds in-place mutation of the `Category` object stored at key `i`. -/
def update (t : CategoryTree) (i : Nat) (f : Category → Category) : CategoryTree :=
  { t with categories := t.categories.map (fun p => if p.1 = i then (p.1, f p.2) else p) }

/-- Embeds `CategoryTree.add_category`.  Fails on a duplicate id; inserts
into the dict; then (exactly as the source: the membership test runs after
the insertion) the category is attached to a present parent, and otherwise
placed in the root set. -/
def add_category (t : CategoryTree) (c : Category) : Except String CategoryTree :=
  if (t.find? c.id).isSome then
    .error "duplicate category id"
  else
    let t1 : CategoryTree := { t with categories := t.categories ++ [(c.id, c)] }
    match c.parent_id with
    | none => .ok { t1 with root_categories := insert c.id t1.root_categories }
    | some p =>
      if (t1.find? p).isSome then
        .ok (t1.update p (insert_child c.id))
      else
        .ok { t1 with root_categories := insert c.id t1.root_categories }

end CategoryTree

/-- Embeds `Category._would_create_cycle`: the source walks the ancestor
chain but breaks out of the loop after the first step (it cannot resolve
ancestors beyond the in-memory parent field), so it only tests whether
`self`'s immediate parent is the candidate child. -/
def Category.would_create_cycle (self child : Category) : Bool :=
  match self.parent_id with
  | none => false
  | some p => p == child.id

namespace CategoryTree

/-- Embeds `Category.add_child` applied to two members of the tree
(addressed by their dict keys, with the object fields read from the
entries): rejects `child.id == self.id` and the one-step cycle check, then
sets the child's `parent_id` and inserts into the parent's `child_ids`.
Exactly as the source, the tree's root set is not touched. -/
def add_child (t : CategoryTree) (selfId childId : Nat) : Except String CategoryTree :=
  match t.find? selfId, t.find? childId with
  | some s, some c =>
    if c.id == s.id then
      .error "Cannot add a category as a child of itself"
    else if s.would_create_cycle c then
      .error "Adding this child would create a circular reference"
    else
      .ok ((t.update childId (set_parent s.id)).update selfId (insert_child c.id))
  | _, _ => .error "category object not present in tree"

/-- Embeds `Category.remove_child` applied to two members of the tree: if
the child is recorded, erase it from `child_ids` and clear its parent. -/
def remove_child (t : CategoryTree) (selfId childId : Nat) : CategoryTree :=
  match t.find? selfId, t.find? childId with
  | some s, some c =>
    if c.id ∈ s.child_ids then
      (t.update selfId (erase_child c.id)).update childId clear_parent
    else t
  | _, _ => t

/-- Embeds the fuel-driven parent chase behind the spec's no-cycle
invariant: does following `parent_id` upward from `i` reach a root (a
category with no parent) within `fuel` lookups? -/
def reaches_root_within (t : CategoryTree) : Nat → Nat → Bool
  | 0, _ => false
  | fuel + 1, i =>
    match t.find? i with
    | none => false
    | some c =>
      match c.parent_id with
      | none => true
      | some p => t.reaches_root_within fuel p

/-- One iteration of the child-promotion loop of
`CategoryTree.remove_category`: a child still present in the map gets its
`parent_id` cleared and is added to the root set. -/
def promote_step (acc : CategoryTree) (ch : Nat) : CategoryTree :=
  if (acc.find? ch).isSome then
    let acc1 := acc.update ch clear_parent
    { acc1 with root_categories := insert ch acc1.root_categories }
  else acc

/-- Embeds the child-promotion loop of `CategoryTree.remove_category`.
The Python `set` iteration order is unspecified; the embedding fixes the
ascending order (the updates on distinct keys commute, so the final state
does not depend on it). -/
def promote_children (t : CategoryTree) (children : Finset Nat) : CategoryTree :=
  (sort_ids children).foldl promote_step t

/-- Embeds the parent-detach prelude of `CategoryTree.remove_category`:
when the removed category has a parent present in the map, the removed id
is erased from that parent's `child_ids`. -/
def detach_from_parent (t : CategoryTree) (i : Nat) (c : Category) : CategoryTree :=
  match c.parent_id with
  | some p =>
    if (t.find? p).isSome then
      t.update p (erase_child i)
    else t
  | none => t

/-- Embeds `CategoryTree.remove_category`: a no-op on an absent id;
otherwise detach from a present parent, promote the direct children to
roots (non-cascading), drop the id from the root set and delete the dict
entry.  The child snapshot is taken after the parent detach, exactly as
`list(category.child_ids)` reads the live object in the source. -/
def remove_category (t : CategoryTree) (i : Nat) : CategoryTree :=
  match t.find? i with
  | none => t
  | some c =>
    let t1 := t.detach_from_parent i c
    let snapshot :=
      match t1.find? i with
      | some c2 => c2.child_ids
      | none => ∅
    let t2 := t1.promote_children snapshot
    let t3 := { t2 with root_categories := t2.root_categories.erase i }
    { t3 with categories := t3.categories.filter (fun p => p.1 != i) }

/-- Embeds `CategoryTree.get_all_images`: the union of every category's
`image_ids`. -/
def get_all_images (t : CategoryTree) : Finset String :=
  t.categories.foldl (fun acc p => acc ∪ p.2.image_ids) ∅

/-- Embeds the inner `traverse` worker of
`CategoryTree.get_category_hierarchy`: appends `(category, depth)` to the
accumulator, then recurses into the sorted `child_ids`.  The source
recursion has no cycle guard; the fuel bounds the recursion depth and is
instantiated at one more than the number of categories, which a traversal
of an acyclic tree can never exhaust. -/
def traverse (t : CategoryTree) : Nat → Nat → Nat → List (Category × Nat) → List (Category × Nat)
  | 0, _, _, acc => acc
  | fuel + 1, cid, depth, acc =>
    match t.find? cid with
    | none => acc
    | some c =>
      (sort_ids c.child_ids).foldl
        (fun a ch => t.traverse fuel ch (depth + 1) a)
        (acc ++ [(c, depth)])

/-- Embeds `CategoryTree.get_category_hierarchy`: traverse from the root
ids in ascending sorted order, visiting `child_ids` in ascending sorted
order, into one flat accumulator. -/
def get_category_hierarchy (t : CategoryTree) : List (Category × Nat) :=
  (sort_ids t.root_categories).foldl
    (fun acc r => t.traverse (t.categories.length + 1) r 0 acc)
    []

/-- Modelled from the spec: `get_category_hierarchy` described in the
spec's own words, for the refinement comparison — a flattened pre-order
traversal (node first, then the subtrees of its children), starting from
the root ids in ascending sorted order and visiting `child_ids` in
ascending sorted order, yielding `(category, depth)` pairs. -/
def preorder_from (t : CategoryTree) : Nat → Nat → Nat → List (Category × Nat)
  | 0, _, _ => []
  | fuel + 1, cid, depth =>
    match t.find? cid with
    | none => []
    | some c =>
      (c, depth) ::
        (sort_ids c.child_ids).flatMap (fun ch => t.preorder_from fuel ch (depth + 1))

/-- Modelled from the spec: the whole-tree flattened pre-order traversal
(see `preorder_from`). -/
def hierarchy_preorder (t : CategoryTree) : List (Category × Nat) :=
  (sort_ids t.root_categories).flatMap
    (fun r => t.preorder_from (t.categories.length + 1) r 0)

/-- Embeds one iteration of the child-move loop of
`CategoryTree.merge_categories`: a child still present in the map is
detached from the source and attached to the target (re-running the cycle
check, which can raise). -/
def merge_child_step (source_id target_id : Nat) (acc : CategoryTree) (ch : Nat) :
    Except String CategoryTree :=
  if (acc.find? ch).isSome then
    (acc.remove_child source_id ch).add_child target_id ch
  else pure acc

/-- Embeds `CategoryTree.merge_categories`: a validation error when either
id is unknown, a no-op when they coincide; otherwise the source's images
are added to the target, each present direct child is moved by
`merge_child_step` (iterating a snapshot of the source's `child_ids`; the
Python `set` order being unspecified, the embedding fixes ascending
order), and finally the source is removed. -/
def merge_categories (t : CategoryTree) (source_id target_id : Nat) :
    Except String CategoryTree :=
  match t.find? source_id, t.find? target_id with
  | some src, some _ =>
    if source_id = target_id then .ok t
    else
      let t1 := t.update target_id (add_images src.image_ids)
      match (sort_ids src.child_ids).foldlM (merge_child_step source_id target_id) t1 with
      | .error e => .error e
      | .ok t2 => .ok (t2.remove_category source_id)
  | _, _ => .error "Both source and target categories must exist"

/-- Embeds the `elif` arm of `CategoryTree.optimize_hierarchy`: when the
small category has no usable parent, merge it into the first other
childless category in dict order, if the dict has more than one entry. -/
def optimize_fallback (acc : CategoryTree) (cid : Nat) : Except String CategoryTree :=
  if 1 < acc.categories.length then
    match acc.categories.find? (fun q => q.1 != cid && decide (q.2.child_ids = ∅)) with
    | some q => acc.merge_categories cid q.1
    | none => pure acc
  else pure acc

/-- One iteration of the merge loop of `CategoryTree.optimize_hierarchy`:
skip ids already removed by an earlier merge of the same pass, merge into
the present parent when there is one, and fall back otherwise. -/
def optimize_step (acc : CategoryTree) (cid : Nat) : Except String CategoryTree :=
  match acc.find? cid with
  | none => pure acc
  | some c =>
    match c.parent_id with
    | some p =>
      if (acc.find? p).isSome then acc.merge_categories cid p
      else acc.optimize_fallback cid
    | none => acc.optimize_fallback cid

/-- Embeds `CategoryTree.optimize_hierarchy`: scan once for leaf
categories (no children) below the image threshold, then run
`optimize_step` on each in dict order. -/
def optimize_hierarchy (t : CategoryTree) (min_images : Nat) : Except String CategoryTree :=
  let small := (t.categories.filter
    (fun p => decide (p.2.image_ids.card < min_images ∧ p.2.child_ids = ∅))).map (fun p => p.1)
  small.foldlM optimize_step t

end CategoryTree

/-! Basic lemmas about lookup and pointwise update. -/

theorem CategoryTree.find?_update (t : CategoryTree) (i j : Nat) (f : Category → Category) :
    (t.update i f).find? j = if j = i then (t.find? j).map f else t.find? j := by
  unfold CategoryTree.update CategoryTree.find?
  rw [List.find?_map]
  rw [show ((fun p : Nat × Category => p.1 == j) ∘ fun p => if p.1 = i then (p.1, f p.2) else p)
      = fun p : Nat × Category => p.1 == j by
    funext p; by_cases h : p.1 = i <;> simp [h]]
  by_cases hij : j = i
  · subst hij
    cases hf : t.categories.find? (fun p => p.1 == j) with
    | none => simp
    | some q =>
      have hq : q.1 = j := by simpa using List.find?_some hf
      simp [hq]
  · cases hf : t.categories.find? (fun p => p.1 == j) with
    | none => simp [hij]
    | some q =>
      have hq : q.1 = j := by simpa using List.find?_some hf
      simp [hij, hq]

theorem CategoryTree.find?_update_eq (t : CategoryTree) (i : Nat) (f : Category → Category) :
    (t.update i f).find? i = (t.find? i).map f := by
  simp [CategoryTree.find?_update]

theorem CategoryTree.find?_update_ne (t : CategoryTree) (i j : Nat) (f : Category → Category)
    (h : j ≠ i) : (t.update i f).find? j = t.find? j := by
  simp [CategoryTree.find?_update, h]

theorem Category.would_create_cycle_iff (s c : Category) :
    s.would_create_cycle c = true ↔ s.parent_id = some c.id := by
  unfold Category.would_create_cycle
  cases s.parent_id <;> simp

/-! Claim C1: the cycle guard of `add_child`.  The source's
`_would_create_cycle` inspects only the immediate parent, so `add_child`
rejects exactly self-attachment and direct 2-cycles; three individually
successful `add_child` calls can close a 3-cycle after which the parent
chain never reaches a root. -/

/-- The three-root tree 1, 2, 3 built by successful `add_category` calls,
followed by the successful calls `add_child 1 2`, `add_child 2 3`,
`add_child 3 1`, which close the parent cycle 1 → 3 → 2 → 1. -/
def c1_cycle_run : Except String CategoryTree := do
  let t0 : CategoryTree := {}
  let t1 ← t0.add_category { name := "A", id := 1 }
  let t2 ← t1.add_category { name := "B", id := 2 }
  let t3 ← t2.add_category { name := "C", id := 3 }
  let t4 ← t3.add_child 1 2
  let t5 ← t4.add_child 2 3
  t5.add_child 3 1

/-- C1 (counterexample): a sequence of three `add_category` and three
`add_child` operations, each of which succeeds, produces a tree of three
categories in which following `parent_id` upward from category 1 does not
terminate at a root within 3 steps (nor within 100) — refuting the claimed
no-cycle invariant and the claim that `add_child` raises a structural
error whenever attaching would create an ancestor cycle. -/
theorem add_child_cycle_cex :
    (c1_cycle_run.toOption.map
      (fun t => (t.categories.length, t.reaches_root_within t.categories.length 1,
        t.reaches_root_within 100 1)))
      = some (3, false, false) := by decide

/-- C1 (amended): given two members of the tree, `add_child` succeeds
exactly when the child is neither the category itself nor the category's
current parent (the cycle check inspects only the immediate parent), and
on success the child's `parent_id` becomes the parent's id. -/
theorem add_child_cycle_guard (t : CategoryTree) (p c : Nat) (cp cc : Category)
    (hp : t.find? p = some cp) (hc : t.find? c = some cc) :
    ((∃ t2, t.add_child p c = .ok t2) ↔ (cc.id ≠ cp.id ∧ cp.parent_id ≠ some cc.id))
    ∧ (∀ t2, t.add_child p c = .ok t2 →
        (t2.find? c).map Category.parent_id = some (some cp.id)) := by
  have hpc : cc.id ≠ cp.id → p ≠ c := by
    intro hne he
    subst he
    rw [hp] at hc
    cases hc
    exact hne rfl
  unfold CategoryTree.add_child
  rw [hp, hc]
  by_cases hid : cc.id = cp.id
  · simp [hid]
  · by_cases hcyc : cp.parent_id = some cc.id
    · have : cp.would_create_cycle cc = true := (Category.would_create_cycle_iff cp cc).mpr hcyc
      simp [hid, this, hcyc]
    · have : cp.would_create_cycle cc = false := by
        rw [Bool.eq_false_iff]
        intro h
        exact hcyc ((Category.would_create_cycle_iff cp cc).mp h)
      refine ⟨by simp [hid, this, hcyc], ?_⟩
      intro t2 h2
      simp only [beq_iff_eq, hid, if_false, this, Bool.false_eq_true, Except.ok.injEq] at h2
      subst h2
      rw [CategoryTree.find?_update_ne _ _ _ _ (Ne.symm (hpc hid)),
        CategoryTree.find?_update_eq, hc]
      rfl

/-- C1 (witness): on the two-root tree with categories 1 and 2, the
amended theorem yields that `add_child 1 2` succeeds and sets category 2's
parent to 1. -/
theorem add_child_cycle_guard_witness :
    (∃ t2, (CategoryTree.mk [(1, { name := "A", id := 1 }), (2, { name := "B", id := 2 })]
        {1, 2}).add_child 1 2 = .ok t2)
    ∧ (∀ t2, (CategoryTree.mk [(1, { name := "A", id := 1 }), (2, { name := "B", id := 2 })]
        {1, 2}).add_child 1 2 = .ok t2 →
        (t2.find? 2).map Category.parent_id = some (some 1)) := by
  have h := add_child_cycle_guard
    (CategoryTree.mk [(1, { name := "A", id := 1 }), (2, { name := "B", id := 2 })] {1, 2})
    1 2 { name := "A", id := 1 } { name := "B", id := 2 } (by decide) (by decide)
  exact ⟨h.1.mpr (by decide), h.2⟩

/-! Claim C2: bidirectional parent/child consistency under `add_category`. -/

/-- Bidirectional consistency: every category with a set `parent_id` has a
present parent whose `child_ids` contains it, and every `child_ids` entry
points back at a present category whose `parent_id` is the owner. -/
def Consistent (t : CategoryTree) : Prop :=
  (∀ q ∈ t.categories, ∀ p, q.2.parent_id = some p →
      ∃ pc, t.find? p = some pc ∧ q.1 ∈ pc.child_ids) ∧
  (∀ q ∈ t.categories, ∀ ch ∈ q.2.child_ids,
      ∃ cc, t.find? ch = some cc ∧ cc.parent_id = some q.1)

/-- Each category in the list names, as its parent, only an id added
strictly earlier (or one of the initially `seen` ids). -/
def ParentsSeen : List Nat → List Category → Prop
  | _, [] => True
  | seen, c :: rest =>
    (match c.parent_id with
     | none => True
     | some p => p ∈ seen) ∧ ParentsSeen (seen ++ [c.id]) rest

/-- A sequence of `add_category` calls, stopping at the first error. -/
def add_all (t : CategoryTree) (cs : List Category) : Except String CategoryTree :=
  cs.foldlM CategoryTree.add_category t

theorem CategoryTree.isSome_find?_iff (t : CategoryTree) (k : Nat) :
    (t.find? k).isSome ↔ k ∈ t.keys := by
  unfold CategoryTree.find? CategoryTree.keys
  have h1 : (Option.map (fun p : Nat × Category => p.2)
      (t.categories.find? (fun p => p.1 == k))).isSome
      = (t.categories.find? (fun p => p.1 == k)).isSome := by
    cases t.categories.find? (fun p => p.1 == k) <;> rfl
  rw [h1, List.find?_isSome]
  constructor
  · rintro ⟨x, hx, hk⟩
    exact List.mem_map.mpr ⟨x, hx, by simpa using hk⟩
  · intro h
    obtain ⟨x, hx, hk⟩ := List.mem_map.mp h
    exact ⟨x, hx, by simpa using hk⟩

/-- Lookup in a tree whose dict has one fresh entry appended. -/
theorem CategoryTree.find?_extend (t : CategoryTree) (j : Nat) (c : Category)
    (roots : Finset Nat) (k : Nat) :
    (CategoryTree.mk (t.categories ++ [(j, c)]) roots).find? k =
      match t.find? k with
      | some x => some x
      | none => if k = j then some c else none := by
  show ((t.categories ++ [(j, c)]).find? (fun p => p.1 == k)).map (fun p => p.2) = _
  rw [List.find?_append]
  cases hf : t.categories.find? (fun p => p.1 == k) with
  | some q => simp [CategoryTree.find?, hf, Option.or]
  | none =>
    by_cases hk : k = j
    · subst hk
      simp [CategoryTree.find?, hf, Option.or, List.find?]
    · simp only [CategoryTree.find?, hf, Option.map_none, Option.none_or, if_neg hk]
      have : ((j, c).1 == k) = false := by simpa using fun h => hk h.symm
      simp [List.find?, this]

theorem CategoryTree.keys_update (t : CategoryTree) (i : Nat) (f : Category → Category) :
    (t.update i f).keys = t.keys := by
  unfold CategoryTree.update CategoryTree.keys
  rw [List.map_map]
  apply List.map_congr_left
  intro p _
  by_cases h : p.1 = i <;> simp [h]

/-- One successful `add_category` of a bare category whose parent (when
set) is already present preserves bidirectional consistency, and appends
exactly the new id to the key list. -/
theorem add_category_step (t t1 : CategoryTree) (c : Category)
    (hcons : Consistent t) (hbare : c.child_ids = ∅)
    (hpar : ∀ p, c.parent_id = some p → p ∈ t.keys)
    (hok : t.add_category c = .ok t1) :
    Consistent t1 ∧ t1.keys = t.keys ++ [c.id] := by
  unfold CategoryTree.add_category at hok
  by_cases hdup : (t.find? c.id).isSome
  · simp [hdup] at hok
  · have hnone : t.find? c.id = none := Option.not_isSome_iff_eq_none.mp hdup
    simp only [hdup, Bool.false_eq_true, if_neg, reduceIte] at hok
    set tb : CategoryTree :=
      { t with categories := t.categories ++ [(c.id, c)] } with htb
    have hfind_tb : ∀ k, tb.find? k =
        match t.find? k with
        | some x => some x
        | none => if k = c.id then some c else none := by
      intro k
      exact CategoryTree.find?_extend t c.id c t.root_categories k
    have hroots_find : ∀ (r : Finset Nat) (k : Nat),
        (CategoryTree.mk tb.categories r).find? k = tb.find? k := by
      intro r k
      rfl
    have hkeys_tb : tb.categories.map (fun p => p.1) = t.keys ++ [c.id] := by
      simp [htb, CategoryTree.keys]
    cases hcp : c.parent_id with
    | none =>
      rw [hcp] at hok
      cases hok
      constructor
      · constructor
        · intro q hq p hp
          rcases List.mem_append.mp hq with hq | hq
          · obtain ⟨pc, hpc, hmem⟩ := hcons.1 q hq p hp
            refine ⟨pc, ?_, hmem⟩
            rw [hroots_find, hfind_tb, hpc]
          · simp at hq
            subst hq
            have hp2 : c.parent_id = some p := hp
            rw [hcp] at hp2
            cases hp2
        · intro q hq ch hch
          rcases List.mem_append.mp hq with hq | hq
          · obtain ⟨cc, hcc, hpc⟩ := hcons.2 q hq ch hch
            refine ⟨cc, ?_, hpc⟩
            rw [hroots_find, hfind_tb, hcc]
          · simp at hq
            subst hq
            have hch2 : ch ∈ c.child_ids := hch
            rw [hbare] at hch2
            exact absurd hch2 (Finset.not_mem_empty ch)
      · simp [CategoryTree.keys]
    | some p =>
      rw [hcp] at hok
      have hpmem : p ∈ t.keys := hpar p hcp
      have hpt : (t.find? p).isSome := (CategoryTree.isSome_find?_iff t p).mpr hpmem
      obtain ⟨pc, hpc⟩ := Option.isSome_iff_exists.mp hpt
      have hpne : p ≠ c.id := by
        intro h
        rw [h, hnone] at hpc
        cases hpc
      have hptb : tb.find? p = some pc := by
        rw [hfind_tb, hpc]
      have hptb_some : (tb.find? p).isSome := by
        rw [hptb]
        rfl
      simp only [hptb_some, if_true] at hok
      cases hok
      set f : Category → Category := insert_child c.id with hf
      have hfind1 : ∀ k, (tb.update p f).find? k =
          if k = p then ((tb.find? k).map f) else tb.find? k :=
        fun k => CategoryTree.find?_update tb p k f
      have hmem1 : ∀ q, q ∈ (tb.update p f).categories →
          ∃ q0, q0 ∈ tb.categories ∧
            q = (if q0.1 = p then (q0.1, f q0.2) else q0) := by
        intro q hq
        obtain ⟨q0, hq0, hqe⟩ := List.mem_map.mp hq
        exact ⟨q0, hq0, hqe.symm⟩
      constructor
      · constructor
        · intro q hq r hr
          obtain ⟨q0, hq0, hqe⟩ := hmem1 q hq
          have hq0mem := List.mem_append.mp hq0
          have hkey : q.1 = q0.1 := by
            rw [hqe]
            by_cases h : q0.1 = p <;> simp [h]
          have hparent : q.2.parent_id = q0.2.parent_id := by
            rw [hqe]
            by_cases h : q0.1 = p <;> simp [h, hf, insert_child]
          rw [hparent] at hr
          rcases hq0mem with hq0m | hq0m
          · obtain ⟨rc, hrc, hrmem⟩ := hcons.1 q0 hq0m r hr
            by_cases hrp : r = p
            · subst hrp
              have : rc = pc := by
                rw [hrc] at hpc
                cases hpc
                rfl
              subst this
              refine ⟨f rc, ?_, ?_⟩
              · rw [hfind1, if_pos rfl, hptb]
                rfl
              · rw [hkey]
                exact Finset.mem_insert_of_mem hrmem
            · refine ⟨rc, ?_, by rw [hkey]; exact hrmem⟩
              rw [hfind1, if_neg hrp, hfind_tb, hrc]
          · simp at hq0m
            subst hq0m
            have hr2 : c.parent_id = some r := hr
            rw [hcp] at hr2
            cases hr2
            refine ⟨f pc, ?_, ?_⟩
            · rw [hfind1, if_pos rfl, hptb]
              rfl
            · rw [hkey]
              exact Finset.mem_insert_self c.id pc.child_ids
        · intro q hq ch hch
          obtain ⟨q0, hq0, hqe⟩ := hmem1 q hq
          have hq0mem := List.mem_append.mp hq0
          have hkey : q.1 = q0.1 := by
            rw [hqe]
            by_cases h : q0.1 = p <;> simp [h]
          rcases hq0mem with hq0m | hq0m
          · by_cases hqp : q0.1 = p
            · rw [hqe, if_pos hqp] at hch
              simp only [hf, insert_child] at hch
              rcases Finset.mem_insert.mp hch with hch | hch
              · subst hch
                refine ⟨c, ?_, ?_⟩
                · rw [hfind1, if_neg (fun h => hpne h.symm), hfind_tb, hnone, if_pos rfl]
                · rw [hcp, hkey, hqp]
              · obtain ⟨cc, hcc, hccp⟩ := hcons.2 q0 hq0m ch hch
                by_cases hchp : ch = p
                · subst hchp
                  have : cc = pc := by
                    rw [hcc] at hpc
                    cases hpc
                    rfl
                  subst this
                  refine ⟨f cc, ?_, ?_⟩
                  · rw [hfind1, if_pos rfl, hptb]
                    rfl
                  · rw [hkey]
                    simpa [hf, insert_child] using hccp
                · refine ⟨cc, ?_, by rw [hkey]; exact hccp⟩
                  rw [hfind1, if_neg hchp, hfind_tb, hcc]
            · rw [hqe, if_neg hqp] at hch
              obtain ⟨cc, hcc, hccp⟩ := hcons.2 q0 hq0m ch hch
              by_cases hchp : ch = p
              · subst hchp
                have : cc = pc := by
                  rw [hcc] at hpc
                  cases hpc
                  rfl
                subst this
                refine ⟨f cc, ?_, ?_⟩
                · rw [hfind1, if_pos rfl, hptb]
                  rfl
                · rw [hkey]
                  simpa [hf, insert_child] using hccp
              · refine ⟨cc, ?_, by rw [hkey]; exact hccp⟩
                rw [hfind1, if_neg hchp, hfind_tb, hcc]
          · simp at hq0m
            subst hq0m
            have hkc : ¬(((c.id, c) : Nat × Category).1 = p) := fun h => hpne h.symm
            rw [hqe, if_neg hkc] at hch
            have hch2 : ch ∈ c.child_ids := hch
            rw [hbare] at hch2
            exact absurd hch2 (Finset.not_mem_empty ch)
      · calc (tb.update p f).keys = tb.keys := CategoryTree.keys_update tb p f
          _ = t.keys ++ [c.id] := hkeys_tb

/-- The fold of `add_category_step` along a whole sequence. -/
theorem add_all_consistent_aux (cs : List Category) :
    ∀ (t : CategoryTree) (seen : List Nat) (t' : CategoryTree),
      Consistent t → (∀ s ∈ seen, s ∈ t.keys) →
      (∀ c ∈ cs, c.child_ids = ∅) → ParentsSeen seen cs →
      add_all t cs = .ok t' → Consistent t' := by
  induction cs with
  | nil =>
    intro t seen t' hcons _ _ _ h
    cases h
    exact hcons
  | cons c rest ih =>
    intro t seen t' hcons hseen hbare hps h
    obtain ⟨t1, h1, h2⟩ : ∃ t1, t.add_category c = .ok t1 ∧ add_all t1 rest = .ok t' := by
      unfold add_all at h ⊢
      simp only [List.foldlM_cons] at h
      cases hstep : t.add_category c with
      | error e =>
        rw [hstep] at h
        cases h
      | ok t1 =>
        rw [hstep] at h
        exact ⟨t1, rfl, h⟩
    have hpar : ∀ p, c.parent_id = some p → p ∈ t.keys := by
      intro p hp
      have := hps.1
      rw [hp] at this
      exact hseen p this
    obtain ⟨hcons1, hkeys1⟩ :=
      add_category_step t t1 c hcons (hbare c (List.mem_cons_self c rest)) hpar h1
    refine ih t1 (seen ++ [c.id]) t' hcons1 ?_ ?_ hps.2 h2
    · intro s hs
      rw [hkeys1]
      rcases List.mem_append.mp hs with hs | hs
      · exact List.mem_append.mpr (Or.inl (hseen s hs))
      · exact List.mem_append.mpr (Or.inr (by simpa using hs))
    · intro d hd
      exact hbare d (List.mem_cons_of_mem c hd)

/-- C2 (amended): for every tree built by a sequence of successful
`add_category` calls of bare categories (empty `child_ids`) in which every
set `parent_id` names a category added strictly earlier, bidirectional
consistency holds: each category with `parent_id = p` has the present
parent `p` whose `child_ids` contains it, and each `child_ids` entry
points back at its owner.  (When a child arrives before its parent the
link is never completed — see the counterexample.) -/
theorem add_category_consistency (cs : List Category) (t' : CategoryTree)
    (hbare : ∀ c ∈ cs, c.child_ids = ∅)
    (hseen : ParentsSeen [] cs)
    (h : add_all {} cs = .ok t') : Consistent t' := by
  refine add_all_consistent_aux cs {} [] t' ?_ ?_ hbare hseen h
  · unfold Consistent
    constructor
    · intro q hq
      exact nomatch hq
    · intro q hq
      exact nomatch hq
  · intro s hs
    cases hs

/-- C2 (witness): adding parent 1 then child 2 (parent already present)
yields the expected concrete tree, the hypotheses of the amended theorem
hold, and the tree is consistent by the theorem. -/
theorem add_category_consistency_witness :
    add_all {} [{ name := "P", id := 1 }, { name := "C", id := 2, parent_id := some 1 }]
        = .ok (CategoryTree.mk
          [(1, { name := "P", id := 1, child_ids := {2} }),
           (2, { name := "C", id := 2, parent_id := some 1 })] {1})
      ∧ (∀ c ∈ [({ name := "P", id := 1 } : Category),
          { name := "C", id := 2, parent_id := some 1 }], c.child_ids = ∅)
      ∧ Consistent (CategoryTree.mk
          [(1, { name := "P", id := 1, child_ids := {2} }),
           (2, { name := "C", id := 2, parent_id := some 1 })] {1}) := by
  refine ⟨by decide, by decide, ?_⟩
  exact add_category_consistency
    [{ name := "P", id := 1 }, { name := "C", id := 2, parent_id := some 1 }]
    (CategoryTree.mk
      [(1, { name := "P", id := 1, child_ids := {2} }),
       (2, { name := "C", id := 2, parent_id := some 1 })] {1})
    (by decide) (by constructor <;> simp [ParentsSeen]) (by decide)

/-- C2 (counterexample): adding the child (with `parent_id = 2`) before
its parent, both calls succeeding, leaves a tree in which category 1 has
`parent_id = 2` and category 2 exists, yet `2`'s `child_ids` does not
contain `1` — refuting the claimed bidirectional consistency precisely in
the child-before-parent case the claim singles out. -/
theorem add_category_orphan_cex :
    ((add_all {} [{ name := "child", id := 1, parent_id := some 2 },
        { name := "parent", id := 2 }]).toOption.map
      (fun t => ((t.find? 1).map Category.parent_id,
        (t.find? 2).map (fun pc => decide (1 ∈ pc.child_ids)))))
      = some (some (some 2), some false) := by decide

/-! Claim C9: characterization of `remove_category`. -/

theorem promote_step_find? (t : CategoryTree) (ch k : Nat) :
    (CategoryTree.promote_step t ch).find? k =
      if k = ch then (t.find? k).map clear_parent
      else t.find? k := by
  unfold CategoryTree.promote_step
  by_cases hp : (t.find? ch).isSome
  · rw [if_pos hp]
    have : (CategoryTree.mk (t.update ch clear_parent).categories
        (insert ch (t.update ch clear_parent).root_categories)).find? k
        = (t.update ch clear_parent).find? k := rfl
    rw [this, CategoryTree.find?_update]
  · rw [if_neg hp]
    by_cases hk : k = ch
    · subst hk
      rw [if_pos rfl, Option.not_isSome_iff_eq_none.mp hp]
      rfl
    · rw [if_neg hk]

theorem promote_step_roots_mono (t : CategoryTree) (ch : Nat) :
    t.root_categories ⊆ (CategoryTree.promote_step t ch).root_categories := by
  unfold CategoryTree.promote_step
  by_cases hp : (t.find? ch).isSome
  · rw [if_pos hp]
    exact Finset.subset_insert ch _
  · rw [if_neg hp]

theorem clear_parent_idem (c : Category) :
    clear_parent (clear_parent c) = clear_parent c := rfl

theorem foldl_promote_find? (l : List Nat) : ∀ (t : CategoryTree) (k : Nat),
    (l.foldl CategoryTree.promote_step t).find? k =
      if k ∈ l then (t.find? k).map clear_parent
      else t.find? k := by
  induction l with
  | nil =>
    intro t k
    simp
  | cons a l ih =>
    intro t k
    rw [List.foldl_cons, ih]
    by_cases hkl : k ∈ l
    · rw [if_pos hkl, if_pos (List.mem_cons_of_mem a hkl), promote_step_find?]
      by_cases hka : k = a
      · rw [if_pos hka]
        cases t.find? k <;> simp [clear_parent]
      · rw [if_neg hka]
    · rw [if_neg hkl, promote_step_find?]
      by_cases hka : k = a
      · rw [if_pos hka, if_pos (by rw [hka]; exact List.mem_cons_self a l)]
      · rw [if_neg hka, if_neg (by simp [hka, hkl])]

theorem foldl_promote_roots_mono (l : List Nat) : ∀ (t : CategoryTree),
    t.root_categories ⊆ (l.foldl CategoryTree.promote_step t).root_categories := by
  induction l with
  | nil => intro t; rw [List.foldl_nil]
  | cons a l ih =>
    intro t
    rw [List.foldl_cons]
    exact (promote_step_roots_mono t a).trans (ih _)

theorem foldl_promote_roots_mem (l : List Nat) : ∀ (t : CategoryTree) (ch : Nat),
    ch ∈ l → (t.find? ch).isSome →
    ch ∈ (l.foldl CategoryTree.promote_step t).root_categories := by
  induction l with
  | nil =>
    intro t ch h
    cases h
  | cons a l ih =>
    intro t ch hmem hsome
    rw [List.foldl_cons]
    rcases List.mem_cons.mp hmem with hca | hcl
    · subst hca
      apply foldl_promote_roots_mono
      unfold CategoryTree.promote_step
      rw [if_pos hsome]
      exact Finset.mem_insert_self ch _
    · apply ih _ ch hcl
      rw [promote_step_find?]
      by_cases hca : ch = a
      · rw [if_pos hca]
        simpa using hsome
      · rw [if_neg hca]
        exact hsome

theorem promote_children_find? (t : CategoryTree) (s : Finset Nat) (k : Nat) :
    (t.promote_children s).find? k =
      if k ∈ s then (t.find? k).map clear_parent
      else t.find? k := by
  unfold CategoryTree.promote_children
  rw [foldl_promote_find?]
  by_cases h : k ∈ s
  · rw [if_pos (mem_sort_ids.mpr h), if_pos h]
  · rw [if_neg (fun hh => h (mem_sort_ids.mp hh)), if_neg h]

theorem promote_children_roots_mono (t : CategoryTree) (s : Finset Nat) :
    t.root_categories ⊆ (t.promote_children s).root_categories :=
  foldl_promote_roots_mono _ t

theorem promote_children_roots_mem (t : CategoryTree) (s : Finset Nat) (ch : Nat)
    (hmem : ch ∈ s) (hsome : (t.find? ch).isSome) :
    ch ∈ (t.promote_children s).root_categories :=
  foldl_promote_roots_mem _ t ch (mem_sort_ids.mpr hmem) hsome

theorem find?_filter_of_ne (l : List (Nat × Category)) (i k : Nat) (h : ¬k = i) :
    (l.filter (fun p => p.1 != i)).find? (fun p => p.1 == k)
      = l.find? (fun p => p.1 == k) := by
  induction l with
  | nil => rfl
  | cons hd tl ih =>
    by_cases hi : hd.1 = i
    · have h1 : (hd.1 != i) = false := by simp [hi]
      have h2 : (hd.1 == k) = false := by simp [hi]; exact fun hh => h hh.symm
      simp only [List.filter_cons, h1, Bool.false_eq_true, if_neg, reduceIte, List.find?, h2]
      exact ih
    · have h1 : (hd.1 != i) = true := by simp [hi]
      simp only [List.filter_cons, h1, if_pos, reduceIte, List.find?]
      cases hk : (hd.1 == k) with
      | true => rfl
      | false => exact ih

theorem find?_filter_self (l : List (Nat × Category)) (i : Nat) :
    (l.filter (fun p => p.1 != i)).find? (fun p => p.1 == i) = none := by
  rw [List.find?_eq_none]
  intro x hx
  have := (List.mem_filter.mp hx).2
  simpa using this

theorem detach_roots (t : CategoryTree) (i : Nat) (c : Category) :
    (t.detach_from_parent i c).root_categories = t.root_categories := by
  unfold CategoryTree.detach_from_parent
  cases c.parent_id with
  | none => rfl
  | some p =>
    by_cases hp : (t.find? p).isSome
    · simp only [hp, if_true]
      rfl
    · simp only [hp, Bool.false_eq_true, if_false]

theorem detach_find?_isSome (t : CategoryTree) (i : Nat) (c : Category) (k : Nat) :
    ((t.detach_from_parent i c).find? k).isSome = (t.find? k).isSome := by
  unfold CategoryTree.detach_from_parent
  cases c.parent_id with
  | none => rfl
  | some p =>
    by_cases hp : (t.find? p).isSome
    · simp only [hp, if_true]
      rw [CategoryTree.find?_update]
      by_cases hk : k = p
      · rw [if_pos hk]
        cases t.find? k <;> rfl
      · rw [if_neg hk]
    · simp only [hp, Bool.false_eq_true, if_false]

theorem detach_find?_parent_id (t : CategoryTree) (i : Nat) (c : Category) (k : Nat) :
    ((t.detach_from_parent i c).find? k).map Category.parent_id
      = (t.find? k).map Category.parent_id := by
  unfold CategoryTree.detach_from_parent
  cases c.parent_id with
  | none => rfl
  | some p =>
    by_cases hp : (t.find? p).isSome
    · simp only [hp, if_true]
      rw [CategoryTree.find?_update]
      by_cases hk : k = p
      · rw [if_pos hk]
        cases t.find? k <;> rfl
      · rw [if_neg hk]
    · simp only [hp, Bool.false_eq_true, if_false]

/-- C9: `remove_category` is a no-op when the id is absent; otherwise the
entry disappears from the map and the root set, every direct child present
in the tree has its `parent_id` cleared and joins the root set (children
are not deleted: presence of every other id is preserved), the present
parent loses the id from its `child_ids`, and other roots are kept. -/
theorem remove_category_spec (t : CategoryTree) (i : Nat) :
    (t.find? i = none → t.remove_category i = t)
    ∧ ∀ c, t.find? i = some c →
      (t.remove_category i).find? i = none
      ∧ i ∉ (t.remove_category i).root_categories
      ∧ (∀ ch, ch ∈ c.child_ids → ch ≠ i → (t.find? ch).isSome →
          ((t.remove_category i).find? ch).map Category.parent_id = some none
          ∧ ch ∈ (t.remove_category i).root_categories)
      ∧ (∀ p pc, c.parent_id = some p → p ≠ i → t.find? p = some pc →
          ((t.remove_category i).find? p).map Category.child_ids
            = some (pc.child_ids.erase i))
      ∧ (∀ k, k ≠ i → (((t.remove_category i).find? k).isSome ↔ (t.find? k).isSome))
      ∧ (∀ r, r ∈ t.root_categories → r ≠ i → r ∈ (t.remove_category i).root_categories) := by
  constructor
  · intro hnone
    unfold CategoryTree.remove_category
    rw [hnone]
  · intro c hfind
    have hred : t.remove_category i =
        (let t1 := t.detach_from_parent i c
         let snapshot :=
           match t1.find? i with
           | some c2 => c2.child_ids
           | none => (∅ : Finset Nat)
         let t2 := t1.promote_children snapshot
         let t3 := { t2 with root_categories := t2.root_categories.erase i }
         { t3 with categories := t3.categories.filter (fun p => p.1 != i) }) := by
      unfold CategoryTree.remove_category
      rw [hfind]
    set t1 := t.detach_from_parent i c with ht1
    set snapshot : Finset Nat :=
      (match t1.find? i with
       | some c2 => c2.child_ids
       | none => (∅ : Finset Nat)) with hsnapdef
    set t2 := t1.promote_children snapshot with ht2
    have hresult : t.remove_category i =
        { categories := t2.categories.filter (fun p => p.1 != i),
          root_categories := t2.root_categories.erase i } := hred
    have hsnap_sub : snapshot ⊆ c.child_ids ∧ ∀ ch ∈ c.child_ids, ch ≠ i → ch ∈ snapshot := by
      rw [hsnapdef, ht1]
      unfold CategoryTree.detach_from_parent
      cases hcp : c.parent_id with
      | none =>
        rw [hfind]
        exact ⟨Finset.Subset.refl _, fun ch h _ => h⟩
      | some p =>
        by_cases hp : (t.find? p).isSome
        · simp only [hp, if_true]
          rw [CategoryTree.find?_update]
          by_cases hip : i = p
          · rw [if_pos hip, hfind]
            refine ⟨Finset.erase_subset _ _, fun ch hch hchi => ?_⟩
            exact Finset.mem_erase.mpr ⟨hchi, hch⟩
          · rw [if_neg hip, hfind]
            exact ⟨Finset.Subset.refl _, fun ch h _ => h⟩
        · simp only [hp, Bool.false_eq_true, if_false]
          rw [hfind]
          exact ⟨Finset.Subset.refl _, fun ch h _ => h⟩
    have hfind_result : ∀ k, k ≠ i → (t.remove_category i).find? k = t2.find? k := by
      intro k hk
      rw [hresult]
      show ((t2.categories.filter (fun p => p.1 != i)).find? (fun p => p.1 == k)).map _ = _
      rw [find?_filter_of_ne _ _ _ hk]
      rfl
    refine ⟨?_, ?_, ?_, ?_, ?_, ?_⟩
    · rw [hresult]
      show ((t2.categories.filter (fun p => p.1 != i)).find? (fun p => p.1 == i)).map _ = _
      rw [find?_filter_self]
      rfl
    · rw [hresult]
      exact Finset.not_mem_erase i _
    · intro ch hch hchi hsome
      have hchs : ch ∈ snapshot := hsnap_sub.2 ch hch hchi
      have hsome1 : (t1.find? ch).isSome := by
        rw [ht1, detach_find?_isSome]
        exact hsome
      constructor
      · rw [hfind_result ch hchi, ht2, promote_children_find?, if_pos hchs]
        obtain ⟨cc, hcc⟩ := Option.isSome_iff_exists.mp hsome1
        rw [hcc]
        rfl
      · rw [hresult]
        refine Finset.mem_erase.mpr ⟨hchi, ?_⟩
        exact promote_children_roots_mem t1 snapshot ch hchs hsome1
    · intro p pc hcp hpi hpc
      have ht1p : t1.find? p = some { pc with child_ids := pc.child_ids.erase i } := by
        have hpsome : (t.find? p).isSome := by rw [hpc]; rfl
        rw [ht1]
        unfold CategoryTree.detach_from_parent
        rw [hcp]
        simp only [hpsome, if_true]
        rw [CategoryTree.find?_update, if_pos rfl, hpc]
        rfl
      rw [hfind_result p hpi, ht2, promote_children_find?]
      by_cases hps : p ∈ snapshot
      · rw [if_pos hps, ht1p]
        rfl
      · rw [if_neg hps, ht1p]
        rfl
    · intro k hk
      rw [hfind_result k hk, ht2, promote_children_find?]
      have hsome_eq : (t1.find? k).isSome = (t.find? k).isSome := by
        rw [ht1, detach_find?_isSome]
      by_cases hks : k ∈ snapshot
      · rw [if_pos hks]
        cases hk1 : t1.find? k with
        | none =>
          rw [hk1] at hsome_eq
          simp [← hsome_eq]
        | some v =>
          rw [hk1] at hsome_eq
          simp [← hsome_eq]
      · rw [if_neg hks]
        rw [show ((t1.find? k).isSome = (t.find? k).isSome) = _ from rfl] at hsome_eq
        rw [hsome_eq]
    · intro r hr hri
      rw [hresult]
      refine Finset.mem_erase.mpr ⟨hri, ?_⟩
      apply promote_children_roots_mono
      rw [ht1, detach_roots]
      exact hr

/-- C9 (witness): removing root 1 (children 2, 3) from a concrete tree —
the entry disappears, both children lose their parent and become roots,
and both stay present. -/
theorem remove_category_spec_witness :
    ((CategoryTree.mk
      [(1, { name := "R", id := 1, child_ids := {2, 3} }),
       (2, { name := "A", id := 2, parent_id := some 1 }),
       (3, { name := "B", id := 3, parent_id := some 1 })] {1}).remove_category 1).find? 1 = none
    ∧ (((CategoryTree.mk
      [(1, { name := "R", id := 1, child_ids := {2, 3} }),
       (2, { name := "A", id := 2, parent_id := some 1 }),
       (3, { name := "B", id := 3, parent_id := some 1 })] {1}).remove_category 1).find? 2).map
        Category.parent_id = some none
    ∧ 2 ∈ ((CategoryTree.mk
      [(1, { name := "R", id := 1, child_ids := {2, 3} }),
       (2, { name := "A", id := 2, parent_id := some 1 }),
       (3, { name := "B", id := 3, parent_id := some 1 })] {1}).remove_category 1).root_categories
    ∧ (((CategoryTree.mk
      [(1, { name := "R", id := 1, child_ids := {2, 3} }),
       (2, { name := "A", id := 2, parent_id := some 1 }),
       (3, { name := "B", id := 3, parent_id := some 1 })] {1}).remove_category 1).find? 3).isSome := by
  have h := (remove_category_spec (CategoryTree.mk
      [(1, { name := "R", id := 1, child_ids := {2, 3} }),
       (2, { name := "A", id := 2, parent_id := some 1 }),
       (3, { name := "B", id := 3, parent_id := some 1 })] {1}) 1).2
      { name := "R", id := 1, child_ids := {2, 3} } (by decide)
  have h2 := h.2.2.1 2 (by decide) (by decide) (by decide)
  have h3 := (h.2.2.2.2.1 3 (by decide)).mpr (by decide)
  exact ⟨h.1, h2.1, h2.2, h3⟩

/-! Claim C3: `merge_categories`.  Helper notions first. -/

/-- Every stored entry's `id` field equals its dict key — true of every
tree the program builds, since `add_category` keys entries by their id and
no operation rewrites the id field. -/
def KeysMatch (t : CategoryTree) : Prop :=
  ∀ q ∈ t.categories, q.2.id = q.1

theorem KeysMatch.find?_id {t : CategoryTree} (h : KeysMatch t) {k : Nat} {v : Category}
    (hv : t.find? k = some v) : v.id = k := by
  unfold CategoryTree.find? at hv
  cases hf : t.categories.find? (fun p => p.1 == k) with
  | none =>
    rw [hf] at hv
    cases hv
  | some q =>
    rw [hf] at hv
    have hv2 : q.2 = v := by simpa using hv
    have hqk : q.1 = k := by simpa using List.find?_some hf
    have hqm : q ∈ t.categories := List.mem_of_find?_eq_some hf
    rw [← hv2, h q hqm, hqk]

theorem KeysMatch.update {t : CategoryTree} (h : KeysMatch t) (i : Nat)
    (f : Category → Category) (hf : ∀ c, (f c).id = c.id) : KeysMatch (t.update i f) := by
  intro q hq
  obtain ⟨q0, hq0, hqe⟩ := List.mem_map.mp hq
  subst hqe
  by_cases hqi : q0.1 = i <;> simp [hqi, hf, h q0 hq0]

theorem update_isSome (t : CategoryTree) (i : Nat) (f : Category → Category) (k : Nat) :
    ((t.update i f).find? k).isSome = (t.find? k).isSome := by
  rw [CategoryTree.find?_update]
  by_cases h : k = i
  · rw [if_pos h]
    cases t.find? k <;> rfl
  · rw [if_neg h]

theorem update_map_field {β : Type} (t : CategoryTree) (i : Nat) (f : Category → Category)
    (proj : Category → β) (hf : ∀ c, proj (f c) = proj c) (k : Nat) :
    ((t.update i f).find? k).map proj = (t.find? k).map proj := by
  rw [CategoryTree.find?_update]
  by_cases h : k = i
  · rw [if_pos h]
    cases t.find? k with
    | none => rfl
    | some v => simp [hf]
  · rw [if_neg h]

theorem remove_child_isSome (t : CategoryTree) (sId chId k : Nat) :
    ((t.remove_child sId chId).find? k).isSome = (t.find? k).isSome := by
  unfold CategoryTree.remove_child
  split
  · split
    · rw [update_isSome, update_isSome]
    · rfl
  · rfl

theorem remove_child_map_image (t : CategoryTree) (sId chId k : Nat) :
    ((t.remove_child sId chId).find? k).map Category.image_ids
      = (t.find? k).map Category.image_ids := by
  unfold CategoryTree.remove_child
  split
  · rename_i s c hs hc
    split
    · rw [update_map_field _ chId clear_parent Category.image_ids (fun x => rfl),
        update_map_field _ sId (erase_child c.id) Category.image_ids (fun x => rfl)]
    · rfl
  · rfl

theorem remove_child_keysmatch (t : CategoryTree) (sId chId : Nat) (h : KeysMatch t) :
    KeysMatch (t.remove_child sId chId) := by
  unfold CategoryTree.remove_child
  split
  · rename_i s c hs hc
    split
    · exact (h.update sId (erase_child c.id) (fun x => rfl)).update chId clear_parent
        (fun x => rfl)
    · exact h
  · exact h

theorem remove_child_map_parent_ne (t : CategoryTree) (sId chId k : Nat) (hk : k ≠ chId) :
    ((t.remove_child sId chId).find? k).map Category.parent_id
      = (t.find? k).map Category.parent_id := by
  unfold CategoryTree.remove_child
  split
  · rename_i s c hs hc
    split
    · rw [CategoryTree.find?_update_ne _ _ _ _ hk,
        update_map_field _ sId (erase_child c.id) Category.parent_id (fun x => rfl)]
    · rfl
  · rfl

theorem remove_child_find?_other (t : CategoryTree) (sId chId k : Nat)
    (hks : k ≠ sId) (hkc : k ≠ chId) :
    (t.remove_child sId chId).find? k = t.find? k := by
  unfold CategoryTree.remove_child
  split
  · split
    · rw [CategoryTree.find?_update_ne _ _ _ _ hkc, CategoryTree.find?_update_ne _ _ _ _ hks]
    · rfl
  · rfl

theorem remove_child_source (t : CategoryTree) (sId chId : Nat) (hKM : KeysMatch t)
    (hne : sId ≠ chId) :
    ∀ sv1, (t.remove_child sId chId).find? sId = some sv1 →
      ∃ sv, t.find? sId = some sv ∧ sv1.child_ids ⊆ sv.child_ids ∧
        ((t.find? chId).isSome → chId ∉ sv1.child_ids) := by
  intro sv1 hsv1
  cases hs : t.find? sId with
  | none =>
    have heq : t.remove_child sId chId = t := by
      unfold CategoryTree.remove_child
      split
      · rename_i s2 c2 hs2 hc2
        rw [hs] at hs2
        cases hs2
      · rfl
    rw [heq, hs] at hsv1
    cases hsv1
  | some s =>
    cases hc : t.find? chId with
    | none =>
      have heq : t.remove_child sId chId = t := by
        unfold CategoryTree.remove_child
        split
        · rename_i s2 c2 hs2 hc2
          rw [hc] at hc2
          cases hc2
        · rfl
      rw [heq, hs] at hsv1
      have he : s = sv1 := by simpa using hsv1
      subst he
      exact ⟨s, rfl, Finset.Subset.refl _, fun habs => absurd habs (by simp [hc])⟩
    | some c =>
      have hcid : c.id = chId := hKM.find?_id hc
      by_cases hmem : c.id ∈ s.child_ids
      · have heq : t.remove_child sId chId
            = (t.update sId (erase_child c.id)).update chId clear_parent := by
          unfold CategoryTree.remove_child
          split
          · rename_i s2 c2 hs2 hc2
            rw [hs] at hs2
            rw [hc] at hc2
            cases hs2
            cases hc2
            rw [if_pos hmem]
          · rename_i hno
            exact (hno s c hs hc).elim
        rw [heq, CategoryTree.find?_update_ne _ _ _ _ hne,
          CategoryTree.find?_update_eq, hs] at hsv1
        have he : erase_child c.id s = sv1 := by simpa using hsv1
        refine ⟨s, rfl, ?_, ?_⟩
        · rw [← he]
          exact Finset.erase_subset _ _
        · intro _
          rw [← he]
          show chId ∉ (s.child_ids.erase c.id)
          rw [hcid]
          exact Finset.not_mem_erase chId s.child_ids
      · have heq : t.remove_child sId chId = t := by
          unfold CategoryTree.remove_child
          split
          · rename_i s2 c2 hs2 hc2
            rw [hs] at hs2
            rw [hc] at hc2
            cases hs2
            cases hc2
            rw [if_neg hmem]
          · rfl
        rw [heq, hs] at hsv1
        have he : s = sv1 := by simpa using hsv1
        subst he
        exact ⟨s, rfl, Finset.Subset.refl _, fun _ => by rwa [hcid] at hmem⟩

theorem detach_find?_image_ids (t : CategoryTree) (i : Nat) (c : Category) (k : Nat) :
    ((t.detach_from_parent i c).find? k).map Category.image_ids
      = (t.find? k).map Category.image_ids := by
  unfold CategoryTree.detach_from_parent
  cases c.parent_id with
  | none => rfl
  | some p =>
    by_cases hp : (t.find? p).isSome
    · simp only [hp, if_true]
      exact update_map_field _ p (erase_child i) Category.image_ids (fun x => rfl) k
    · simp only [hp, Bool.false_eq_true, if_false]

/-- Successful `add_child` dissected: both entries present, distinct ids,
and the result is the two field updates. -/
theorem add_child_ok_eq (t : CategoryTree) (sId chId : Nat) (t2 : CategoryTree)
    (hok : t.add_child sId chId = .ok t2) :
    ∃ s c, t.find? sId = some s ∧ t.find? chId = some c ∧ c.id ≠ s.id ∧ sId ≠ chId ∧
      t2 = (t.update chId (set_parent s.id)).update sId (insert_child c.id) := by
  unfold CategoryTree.add_child at hok
  cases hs : t.find? sId with
  | none =>
    rw [hs] at hok
    cases hok
  | some s =>
    cases hc : t.find? chId with
    | none =>
      rw [hs, hc] at hok
      cases hok
    | some c =>
      rw [hs, hc] at hok
      by_cases hid : c.id == s.id
      · exact absurd hok (by simp [hid])
      · by_cases hcyc : s.would_create_cycle c
        · exact absurd hok (by simp [hid, hcyc])
        · simp only [hid, Bool.false_eq_true, if_false, hcyc] at hok
          have hid2 : c.id ≠ s.id := by simpa using hid
          have hne : sId ≠ chId := by
            intro h
            rw [h, hc] at hs
            cases hs
            exact hid2 rfl
          refine ⟨s, c, rfl, rfl, hid2, hne, ?_⟩
          cases hok
          rfl

theorem add_child_ok_isSome (t : CategoryTree) (sId chId : Nat) (t2 : CategoryTree)
    (hok : t.add_child sId chId = .ok t2) (k : Nat) :
    (t2.find? k).isSome = (t.find? k).isSome := by
  obtain ⟨s, c, _, _, _, _, rfl⟩ := add_child_ok_eq t sId chId t2 hok
  rw [update_isSome, update_isSome]

theorem add_child_ok_map_image (t : CategoryTree) (sId chId : Nat) (t2 : CategoryTree)
    (hok : t.add_child sId chId = .ok t2) (k : Nat) :
    (t2.find? k).map Category.image_ids = (t.find? k).map Category.image_ids := by
  obtain ⟨s, c, _, _, _, _, rfl⟩ := add_child_ok_eq t sId chId t2 hok
  rw [update_map_field _ sId (insert_child c.id) Category.image_ids (fun x => rfl),
    update_map_field _ chId (set_parent s.id) Category.image_ids (fun x => rfl)]

theorem add_child_ok_keysmatch (t : CategoryTree) (sId chId : Nat) (t2 : CategoryTree)
    (hok : t.add_child sId chId = .ok t2) (h : KeysMatch t) : KeysMatch t2 := by
  obtain ⟨s, c, _, _, _, _, rfl⟩ := add_child_ok_eq t sId chId t2 hok
  exact (h.update chId (set_parent s.id) (fun x => rfl)).update sId (insert_child c.id)
    (fun x => rfl)

theorem add_child_ok_map_parent_ne (t : CategoryTree) (sId chId : Nat) (t2 : CategoryTree)
    (hok : t.add_child sId chId = .ok t2) (k : Nat) (hk : k ≠ chId) :
    (t2.find? k).map Category.parent_id = (t.find? k).map Category.parent_id := by
  obtain ⟨s, c, _, _, _, _, rfl⟩ := add_child_ok_eq t sId chId t2 hok
  rw [update_map_field _ sId (insert_child c.id) Category.parent_id (fun x => rfl),
    CategoryTree.find?_update_ne _ _ _ _ hk]

theorem add_child_ok_parent_set (t : CategoryTree) (sId chId : Nat) (t2 : CategoryTree)
    (hok : t.add_child sId chId = .ok t2) (hKM : KeysMatch t) :
    (t2.find? chId).map Category.parent_id = some (some sId) := by
  obtain ⟨s, c, hsf, hcf, _, hne, rfl⟩ := add_child_ok_eq t sId chId t2 hok
  rw [update_map_field _ sId (insert_child c.id) Category.parent_id (fun x => rfl),
    CategoryTree.find?_update_eq, hcf]
  have : s.id = sId := hKM.find?_id hsf
  simp [set_parent, this]

theorem add_child_ok_find?_other (t : CategoryTree) (sId chId : Nat) (t2 : CategoryTree)
    (hok : t.add_child sId chId = .ok t2) (k : Nat) (hks : k ≠ sId) (hkc : k ≠ chId) :
    t2.find? k = t.find? k := by
  obtain ⟨s, c, _, _, _, _, rfl⟩ := add_child_ok_eq t sId chId t2 hok
  rw [CategoryTree.find?_update_ne _ _ _ _ hks, CategoryTree.find?_update_ne _ _ _ _ hkc]

/-- The child-move loop of `merge_categories`, when it completes without a
structural error: presence, image sets and the keys-match invariant are
preserved; parents outside the processed list are untouched; every
present processed child ends with the target as parent; and any id still
recorded among the source's `child_ids` that is present in the map was
never processed (so it was absent when its turn came). -/
theorem merge_loop_ok (s g : Nat) (l : List Nat) :
    ∀ (acc t2 : CategoryTree),
      l.foldlM (CategoryTree.merge_child_step s g) acc = .ok t2 →
      KeysMatch acc → s ≠ g → s ∉ l → l.Nodup →
      (∀ k, (t2.find? k).isSome = (acc.find? k).isSome)
      ∧ (∀ k, (t2.find? k).map Category.image_ids = (acc.find? k).map Category.image_ids)
      ∧ KeysMatch t2
      ∧ (∀ k, k ∉ l → (t2.find? k).map Category.parent_id
          = (acc.find? k).map Category.parent_id)
      ∧ (∀ a ∈ l, (acc.find? a).isSome →
          (t2.find? a).map Category.parent_id = some (some g))
      ∧ (∀ sv1, t2.find? s = some sv1 → ∀ ch ∈ sv1.child_ids, (t2.find? ch).isSome →
          (∃ sv, acc.find? s = some sv ∧ ch ∈ sv.child_ids) ∧ ch ∉ l) := by
  induction l with
  | nil =>
    intro acc t2 hok hKM hsg hsl hnd
    have ht2 : acc = t2 := by
      simpa [pure, Except.pure] using hok
    subst ht2
    refine ⟨fun k => rfl, fun k => rfl, hKM, fun k _ => rfl, fun a ha => absurd ha (by simp), ?_⟩
    intro sv1 hsv1 ch hch hsome
    exact ⟨⟨sv1, hsv1, hch⟩, by simp⟩
  | cons a l ih =>
    intro acc t2 hok hKM hsg hsl hnd
    have hsl2 : s ∉ l := fun h => hsl (List.mem_cons_of_mem a h)
    have hsa : s ≠ a := fun h => hsl (h ▸ List.mem_cons_self a l)
    have hnd2 : l.Nodup := (List.nodup_cons.mp hnd).2
    have hal : a ∉ l := (List.nodup_cons.mp hnd).1
    rw [List.foldlM_cons] at hok
    obtain ⟨acc1, h1, h2⟩ : ∃ acc1, CategoryTree.merge_child_step s g acc a = .ok acc1
        ∧ l.foldlM (CategoryTree.merge_child_step s g) acc1 = .ok t2 := by
      cases hstep : CategoryTree.merge_child_step s g acc a with
      | error e =>
        rw [hstep] at hok
        cases hok
      | ok acc1 =>
        rw [hstep] at hok
        exact ⟨acc1, rfl, hok⟩
    by_cases hpa : (acc.find? a).isSome
    · unfold CategoryTree.merge_child_step at h1
      rw [if_pos hpa] at h1
      set accR := acc.remove_child s a with haccR
      have hKMR : KeysMatch accR := remove_child_keysmatch acc s a hKM
      have hKM1 : KeysMatch acc1 := add_child_ok_keysmatch accR g a acc1 h1 hKMR
      have hIs1 : ∀ k, (acc1.find? k).isSome = (acc.find? k).isSome := by
        intro k
        rw [add_child_ok_isSome accR g a acc1 h1, haccR, remove_child_isSome]
      have hIm1 : ∀ k, (acc1.find? k).map Category.image_ids
          = (acc.find? k).map Category.image_ids := by
        intro k
        rw [add_child_ok_map_image accR g a acc1 h1, haccR, remove_child_map_image]
      have hPar1 : ∀ k, k ≠ a → (acc1.find? k).map Category.parent_id
          = (acc.find? k).map Category.parent_id := by
        intro k hk
        rw [add_child_ok_map_parent_ne accR g a acc1 h1 k hk, haccR,
          remove_child_map_parent_ne acc s a k hk]
      have hParA : (acc1.find? a).map Category.parent_id = some (some g) :=
        add_child_ok_parent_set accR g a acc1 h1 hKMR
      obtain ⟨Q1, Q2, Q3, Q4, Q5, Q6⟩ := ih acc1 t2 h2 hKM1 hsg hsl2 hnd2
      refine ⟨?_, ?_, Q3, ?_, ?_, ?_⟩
      · intro k
        rw [Q1, hIs1]
      · intro k
        rw [Q2, hIm1]
      · intro k hk
        have hka : k ≠ a := fun h => hk (h ▸ List.mem_cons_self a l)
        have hkl : k ∉ l := fun h => hk (List.mem_cons_of_mem a h)
        rw [Q4 k hkl, hPar1 k hka]
      · intro b hb hbsome
        rcases List.mem_cons.mp hb with hba | hbl
        · subst hba
          rw [Q4 b hal, hParA]
        · refine Q5 b hbl ?_
          rw [hIs1]
          exact hbsome
      · intro sv1 hsv1 ch hch hsome
        obtain ⟨⟨svm, hsvm, hchm⟩, hchl⟩ := Q6 sv1 hsv1 ch hch hsome
        have hsg2 : s ≠ g := hsg
        have hs_acc1 : acc1.find? s = accR.find? s :=
          add_child_ok_find?_other accR g a acc1 h1 s hsg2 hsa
        rw [hs_acc1] at hsvm
        obtain ⟨sv0, hsv0, hsub, hnomem⟩ :=
          remove_child_source acc s a hKM hsa svm hsvm
        have hcha : ch ≠ a := by
          intro h
          subst h
          exact (hnomem hpa) hchm
        refine ⟨⟨sv0, hsv0, hsub hchm⟩, ?_⟩
        intro hmem
        rcases List.mem_cons.mp hmem with h | h
        · exact hcha h
        · exact hchl h
    · unfold CategoryTree.merge_child_step at h1
      rw [if_neg hpa] at h1
      have hacc1 : acc = acc1 := by
        simpa [pure, Except.pure] using h1
      subst hacc1
      obtain ⟨Q1, Q2, Q3, Q4, Q5, Q6⟩ := ih acc t2 h2 hKM hsg hsl2 hnd2
      refine ⟨Q1, Q2, Q3, ?_, ?_, ?_⟩
      · intro k hk
        exact Q4 k (fun h => hk (List.mem_cons_of_mem a h))
      · intro b hb hbsome
        rcases List.mem_cons.mp hb with hba | hbl
        · subst hba
          exact absurd hbsome hpa
        · exact Q5 b hbl hbsome
      · intro sv1 hsv1 ch hch hsome
        obtain ⟨hex, hchl⟩ := Q6 sv1 hsv1 ch hch hsome
        refine ⟨hex, ?_⟩
        intro hmem
        rcases List.mem_cons.mp hmem with h | h
        · subst h
          rw [Q1] at hsome
          exact absurd hsome hpa
        · exact hchl h

theorem promote_children_isSome (t : CategoryTree) (s : Finset Nat) (k : Nat) :
    ((t.promote_children s).find? k).isSome = (t.find? k).isSome := by
  rw [promote_children_find?]
  by_cases h : k ∈ s
  · rw [if_pos h]
    cases t.find? k <;> rfl
  · rw [if_neg h]

theorem promote_children_map_image (t : CategoryTree) (s : Finset Nat) (k : Nat) :
    ((t.promote_children s).find? k).map Category.image_ids
      = (t.find? k).map Category.image_ids := by
  rw [promote_children_find?]
  by_cases h : k ∈ s
  · rw [if_pos h]
    cases t.find? k <;> rfl
  · rw [if_neg h]

/-- Unfolding of `remove_category` on a present id into its stages. -/
theorem remove_category_reduce (t : CategoryTree) (i : Nat) (c : Category)
    (hfind : t.find? i = some c) :
    t.remove_category i =
      { categories := ((t.detach_from_parent i c).promote_children
            (match (t.detach_from_parent i c).find? i with
             | some c2 => c2.child_ids
             | none => (∅ : Finset Nat))).categories.filter (fun p => p.1 != i),
        root_categories := ((t.detach_from_parent i c).promote_children
            (match (t.detach_from_parent i c).find? i with
             | some c2 => c2.child_ids
             | none => (∅ : Finset Nat))).root_categories.erase i } := by
  unfold CategoryTree.remove_category
  rw [hfind]

/-- The snapshot `remove_category` iterates over is contained in the
removed category's recorded `child_ids`. -/
theorem remove_snapshot_subset (t : CategoryTree) (i : Nat) (c : Category)
    (hfind : t.find? i = some c) :
    (match (t.detach_from_parent i c).find? i with
     | some c2 => c2.child_ids
     | none => (∅ : Finset Nat)) ⊆ c.child_ids := by
  unfold CategoryTree.detach_from_parent
  cases hcp : c.parent_id with
  | none =>
    rw [hfind]
  | some p =>
    by_cases hp : (t.find? p).isSome
    · simp only [hp, if_true]
      rw [CategoryTree.find?_update]
      by_cases hip : i = p
      · rw [if_pos hip, hfind]
        exact Finset.erase_subset _ _
      · rw [if_neg hip, hfind]
    · simp only [hp, Bool.false_eq_true, if_false]
      rw [hfind]

/-- C3 (amended): `merge_categories` raises a validation error when either
id is unknown and is a no-op when source and target coincide; otherwise,
when the child re-attachments raise no structural error (the success
case), every image of the source is added to the target, every direct
child of the source present in the tree is re-parented onto the target,
the source disappears, and every other id's presence is unchanged.  (When
a re-attachment does raise — e.g. merging a category into its own direct
child — the merge aborts with that error instead; see the
counterexample.) -/
theorem merge_categories_cases (t : CategoryTree) (s g : Nat) :
    (((t.find? s).isNone ∨ (t.find? g).isNone) →
      t.merge_categories s g = .error "Both source and target categories must exist")
    ∧ ((t.find? s).isSome → s = g → t.merge_categories s g = .ok t)
    ∧ (∀ t' src tgt, KeysMatch t → t.find? s = some src → t.find? g = some tgt →
        s ∉ src.child_ids → s ≠ g →
        t.merge_categories s g = .ok t' →
        t'.find? s = none
        ∧ (t'.find? g).map Category.image_ids = some (tgt.image_ids ∪ src.image_ids)
        ∧ (∀ ch ∈ src.child_ids, (t.find? ch).isSome →
            (t'.find? ch).map Category.parent_id = some (some g))
        ∧ (∀ k, k ≠ s → ((t'.find? k).isSome ↔ (t.find? k).isSome))) := by
  refine ⟨?_, ?_, ?_⟩
  · intro h
    unfold CategoryTree.merge_categories
    cases hfs : t.find? s with
    | none => cases hfg : t.find? g <;> rfl
    | some src =>
      cases hfg : t.find? g with
      | none => rfl
      | some tgt =>
        rcases h with h | h
        · rw [hfs] at h
          cases h
        · rw [hfg] at h
          cases h
  · intro hsome heq
    subst heq
    obtain ⟨src, hsrc⟩ := Option.isSome_iff_exists.mp hsome
    unfold CategoryTree.merge_categories
    simp [hsrc]
  · intro t' src tgt hKM hsrc htgt hnoself hne hok
    unfold CategoryTree.merge_categories at hok
    rw [hsrc, htgt] at hok
    simp only [hne, if_false] at hok
    set t1 := t.update g (add_images src.image_ids) with ht1
    cases hloop : (sort_ids src.child_ids).foldlM (CategoryTree.merge_child_step s g) t1 with
    | error e =>
      rw [hloop] at hok
      cases hok
    | ok t2 =>
      rw [hloop] at hok
      have ht' : t' = t2.remove_category s := by
        cases hok
        rfl
      have hKM1 : KeysMatch t1 := hKM.update g (add_images src.image_ids) (fun x => rfl)
      have hsl : s ∉ sort_ids src.child_ids :=
        fun h => hnoself (mem_sort_ids.mp h)
      have hnd : (sort_ids src.child_ids).Nodup := sort_ids_nodup _
      obtain ⟨Q1, Q2, Q3, Q4, Q5, Q6⟩ :=
        merge_loop_ok s g (sort_ids src.child_ids) t1 t2 hloop hKM1 hne hsl hnd
      have hs2some : (t2.find? s).isSome := by
        rw [Q1, ht1, update_isSome, hsrc]
        rfl
      obtain ⟨svEnd, hsvEnd⟩ := Option.isSome_iff_exists.mp hs2some
      have hrem := remove_category_reduce t2 s svEnd hsvEnd
      set tD := t2.detach_from_parent s svEnd with htD
      set snap : Finset Nat :=
        (match tD.find? s with
         | some c2 => c2.child_ids
         | none => (∅ : Finset Nat)) with hsnap
      set t2v := tD.promote_children snap with ht2v
      have hresult : t' =
          { categories := t2v.categories.filter (fun p => p.1 != s),
            root_categories := t2v.root_categories.erase s } := by
        rw [ht', hrem]
      have hsnap_sub : snap ⊆ svEnd.child_ids := remove_snapshot_subset t2 s svEnd hsvEnd
      have hfind_t' : ∀ k, k ≠ s → t'.find? k = t2v.find? k := by
        intro k hk
        rw [hresult]
        show ((t2v.categories.filter (fun p => p.1 != s)).find? (fun p => p.1 == k)).map _ = _
        rw [find?_filter_of_ne _ _ _ hk]
        rfl
      refine ⟨?_, ?_, ?_, ?_⟩
      · rw [hresult]
        show ((t2v.categories.filter (fun p => p.1 != s)).find? (fun p => p.1 == s)).map _ = _
        rw [find?_filter_self]
        rfl
      · rw [hfind_t' g (Ne.symm hne), ht2v, promote_children_map_image, htD,
          detach_find?_image_ids, Q2, ht1, CategoryTree.find?_update_eq, htgt]
        rfl
      · intro ch hch hchsome
        have hchs : ch ≠ s := fun h => hnoself (h ▸ hch)
        have hchsort : ch ∈ sort_ids src.child_ids := mem_sort_ids.mpr hch
        have hch1 : (t1.find? ch).isSome := by
          rw [ht1, update_isSome]
          exact hchsome
        have hch2par : (t2.find? ch).map Category.parent_id = some (some g) :=
          Q5 ch hchsort hch1
        have hchnotsnap : ch ∉ snap := by
          intro hmem
          have hchend : ch ∈ svEnd.child_ids := hsnap_sub hmem
          have hch2some : (t2.find? ch).isSome := by
            rw [Q1]
            exact hch1
          exact (Q6 svEnd hsvEnd ch hchend hch2some).2 hchsort
        rw [hfind_t' ch hchs, ht2v, promote_children_find?, if_neg hchnotsnap, htD,
          detach_find?_parent_id, hch2par]
      · intro k hk
        rw [hfind_t' k hk]
        have : (t2v.find? k).isSome = (t.find? k).isSome := by
          rw [ht2v, promote_children_isSome, htD, detach_find?_isSome, Q1, ht1, update_isSome]
        rw [this]

/-- Concrete two-category tree used to exercise the merge theorems. -/
def merge_demo_tree : CategoryTree :=
  CategoryTree.mk [(1, { name := "A", id := 1, image_ids := {"a"} }),
    (2, { name := "B", id := 2, image_ids := {"b"} })] {1, 2}

/-- Concrete parent/child tree on which merging into the own child aborts. -/
def merge_cycle_tree : CategoryTree :=
  CategoryTree.mk [(1, { name := "A", id := 1, child_ids := {2} }),
    (2, { name := "B", id := 2, parent_id := some 1 })] {1}

/-- C3 (witness): merging category 1 (image set `{"a"}`) into category 2
(image set `{"b"}`), both present and childless, succeeds with a tree in
which 1 is gone and 2 holds both images; the unknown-id and no-op cases
are also exercised. -/
theorem merge_categories_cases_witness :
    (merge_demo_tree.merge_categories 1 3
      = .error "Both source and target categories must exist")
    ∧ (merge_demo_tree.merge_categories 1 1 = .ok merge_demo_tree)
    ∧ ((merge_demo_tree.merge_categories 1 2).toOption.map
        (fun t' => (t'.find? 1, (t'.find? 2).map Category.image_ids))
      = some (none, some ({"b"} ∪ {"a"}))) := by
  refine ⟨?_, ?_, ?_⟩
  · exact (merge_categories_cases merge_demo_tree 1 3).1 (by decide)
  · exact (merge_categories_cases merge_demo_tree 1 1).2.1 (by decide) rfl
  · have hm : merge_demo_tree.merge_categories 1 2
        = .ok (CategoryTree.mk [(2, { name := "B", id := 2, image_ids := {"b"} ∪ {"a"} })]
            (({1, 2} : Finset Nat).erase 1)) := by decide
    obtain ⟨c1, c2, c3, c4⟩ := (merge_categories_cases merge_demo_tree 1 2).2.2
      (CategoryTree.mk [(2, { name := "B", id := 2, image_ids := {"b"} ∪ {"a"} })]
        (({1, 2} : Finset Nat).erase 1))
      { name := "A", id := 1, image_ids := {"a"} }
      { name := "B", id := 2, image_ids := {"b"} }
      (by unfold KeysMatch; decide) (by decide) (by decide) (by decide) (by decide) hm
    rw [hm]
    show some ((CategoryTree.mk [(2, { name := "B", id := 2, image_ids := {"b"} ∪ {"a"} })]
        (({1, 2} : Finset Nat).erase 1)).find? 1,
      ((CategoryTree.mk [(2, { name := "B", id := 2, image_ids := {"b"} ∪ {"a"} })]
        (({1, 2} : Finset Nat).erase 1)).find? 2).map Category.image_ids) = _
    rw [c1, c2]

/-- C3 (counterexample): merging a category into its own direct child —
both ids present and distinct, so by the claim the source's children
should be re-parented and the source removed — instead raises the
structural error from the re-attachment cycle check, refuting the claim's
unconditional success clause. -/
theorem merge_into_own_child_cex :
    (merge_cycle_tree.find? 1).isSome
    ∧ (merge_cycle_tree.find? 2).isSome
    ∧ (merge_cycle_tree.merge_categories 1 2
      = .error "Cannot add a category as a child of itself") := by decide

/-! Claim C10: `optimize_hierarchy` preserves `get_all_images`. -/

theorem mem_get_all_images (t : CategoryTree) (x : String) :
    x ∈ t.get_all_images ↔ ∃ q ∈ t.categories, x ∈ q.2.image_ids := by
  have haux : ∀ (l : List (Nat × Category)) (acc : Finset String),
      (x ∈ l.foldl (fun a p => a ∪ p.2.image_ids) acc
        ↔ x ∈ acc ∨ ∃ q ∈ l, x ∈ q.2.image_ids) := by
    intro l
    induction l with
    | nil => simp
    | cons hd tl ih =>
      intro acc
      rw [List.foldl_cons, ih]
      constructor
      · rintro (h | h)
        · rcases Finset.mem_union.mp h with h | h
          · exact Or.inl h
          · exact Or.inr ⟨hd, List.mem_cons_self hd tl, h⟩
        · obtain ⟨q, hq, hx⟩ := h
          exact Or.inr ⟨q, List.mem_cons_of_mem hd hq, hx⟩
      · rintro (h | h)
        · exact Or.inl (Finset.mem_union_left _ h)
        · obtain ⟨q, hq, hx⟩ := h
          rcases List.mem_cons.mp hq with hq | hq
          · subst hq
            exact Or.inl (Finset.mem_union_right _ hx)
          · exact Or.inr ⟨q, hq, hx⟩
  rw [CategoryTree.get_all_images, haux]
  simp

theorem assoc_find?_of_mem (l : List (Nat × Category))
    (hnd : (l.map (fun p => p.1)).Nodup) (q : Nat × Category) (hq : q ∈ l) :
    l.find? (fun p => p.1 == q.1) = some q := by
  induction l with
  | nil => cases hq
  | cons hd tl ih =>
    rcases List.mem_cons.mp hq with hq | hq
    · subst hq
      simp [List.find?]
    · have hne : (hd.1 == q.1) = false := by
        simp only [beq_eq_false_iff_ne, ne_eq]
        intro he
        have : hd.1 ∈ tl.map (fun p => p.1) := List.mem_map.mpr ⟨q, hq, he.symm⟩
        exact (List.nodup_cons.mp hnd).1 this
      rw [List.find?, hne]
      exact ih (List.nodup_cons.mp hnd).2 hq

theorem mem_categories_iff_find? (t : CategoryTree) (hnd : t.keys.Nodup)
    (q : Nat × Category) : q ∈ t.categories ↔ t.find? q.1 = some q.2 := by
  unfold CategoryTree.keys at hnd
  constructor
  · intro hq
    unfold CategoryTree.find?
    rw [assoc_find?_of_mem t.categories hnd q hq]
    rfl
  · intro hfind
    unfold CategoryTree.find? at hfind
    cases hf : t.categories.find? (fun p => p.1 == q.1) with
    | none =>
      rw [hf] at hfind
      cases hfind
    | some r =>
      rw [hf] at hfind
      have hr2 : r.2 = q.2 := by simpa using hfind
      have hrk : r.1 = q.1 := by simpa using List.find?_some hf
      have hrm : r ∈ t.categories := List.mem_of_find?_eq_some hf
      have : r = q := Prod.ext hrk hr2
      exact this ▸ hrm

/-- Image membership through the unique-key view of the dict. -/
theorem mem_images_find? (t : CategoryTree) (hnd : t.keys.Nodup) (x : String) :
    x ∈ t.get_all_images ↔ ∃ k v, t.find? k = some v ∧ x ∈ v.image_ids := by
  rw [mem_get_all_images]
  constructor
  · rintro ⟨q, hq, hx⟩
    exact ⟨q.1, q.2, (mem_categories_iff_find? t hnd q).mp hq, hx⟩
  · rintro ⟨k, v, hf, hx⟩
    refine ⟨(k, v), ?_, hx⟩
    exact (mem_categories_iff_find? t hnd (k, v)).mpr hf

theorem keys_promote_children (t : CategoryTree) (s : Finset Nat) :
    (t.promote_children s).keys = t.keys := by
  unfold CategoryTree.promote_children
  induction sort_ids s generalizing t with
  | nil => rfl
  | cons a l ih =>
    rw [List.foldl_cons, ih]
    unfold CategoryTree.promote_step
    by_cases hp : (t.find? a).isSome
    · rw [if_pos hp]
      exact CategoryTree.keys_update t a clear_parent
    · rw [if_neg hp]

theorem keys_detach (t : CategoryTree) (i : Nat) (c : Category) :
    (t.detach_from_parent i c).keys = t.keys := by
  unfold CategoryTree.detach_from_parent
  cases c.parent_id with
  | none => rfl
  | some p =>
    by_cases hp : (t.find? p).isSome
    · simp only [hp, if_true]
      exact CategoryTree.keys_update t p (erase_child i)
    · simp only [hp, Bool.false_eq_true, if_false]

theorem detach_find?_child_sub (t : CategoryTree) (i : Nat) (c : Category) (k : Nat)
    (v' : Category) (hv' : (t.detach_from_parent i c).find? k = some v') :
    ∃ v, t.find? k = some v ∧ v'.child_ids ⊆ v.child_ids := by
  unfold CategoryTree.detach_from_parent at hv'
  cases hcp : c.parent_id with
  | none =>
    rw [hcp] at hv'
    exact ⟨v', hv', Finset.Subset.refl _⟩
  | some p =>
    rw [hcp] at hv'
    by_cases hp : (t.find? p).isSome
    · simp only [hp, if_true] at hv'
      rw [CategoryTree.find?_update] at hv'
      by_cases hk : k = p
      · rw [if_pos hk] at hv'
        cases hv0 : t.find? k with
        | none =>
          rw [hv0] at hv'
          cases hv'
        | some v =>
          rw [hv0] at hv'
          have he : erase_child i v = v' := by simpa using hv'
          refine ⟨v, rfl, ?_⟩
          rw [← he]
          exact Finset.erase_subset _ _
      · rw [if_neg hk] at hv'
        exact ⟨v', hv', Finset.Subset.refl _⟩
    · simp only [hp, Bool.false_eq_true, if_false] at hv'
      exact ⟨v', hv', Finset.Subset.refl _⟩

theorem promote_children_map_child (t : CategoryTree) (s : Finset Nat) (k : Nat) :
    ((t.promote_children s).find? k).map Category.child_ids
      = (t.find? k).map Category.child_ids := by
  rw [promote_children_find?]
  by_cases h : k ∈ s
  · rw [if_pos h]
    cases t.find? k <;> rfl
  · rw [if_neg h]

theorem sort_ids_empty : sort_ids (∅ : Finset Nat) = [] := rfl

/-- Merging a childless present source into a present target always
succeeds, and preserves the image union, key uniqueness and presence;
surviving categories' `child_ids` never grow. -/
theorem merge_childless (t : CategoryTree) (s g : Nat) (src : Category)
    (hnd : t.keys.Nodup)
    (hs : t.find? s = some src) (hchild : src.child_ids = ∅)
    (hg : (t.find? g).isSome) :
    ∃ t', t.merge_categories s g = .ok t'
      ∧ t'.get_all_images = t.get_all_images
      ∧ t'.keys.Nodup
      ∧ (∀ k, (t'.find? k).isSome → (t.find? k).isSome)
      ∧ (∀ k v', t'.find? k = some v' →
          ∃ v, t.find? k = some v ∧ v'.child_ids ⊆ v.child_ids) := by
  obtain ⟨tgt, hgt⟩ := Option.isSome_iff_exists.mp hg
  by_cases hsg : s = g
  · refine ⟨t, ?_, rfl, hnd, fun k h => h, fun k v' h => ⟨v', h, Finset.Subset.refl _⟩⟩
    subst hsg
    unfold CategoryTree.merge_categories
    simp [hs]
  · set t1 := t.update g (add_images src.image_ids) with ht1
    have hmerge : t.merge_categories s g = .ok (t1.remove_category s) := by
      unfold CategoryTree.merge_categories
      rw [hs, hgt]
      simp only [hsg, if_false, hchild, sort_ids_empty, List.foldlM_nil]
      rfl
    have ht1_ne : ∀ k, k ≠ g → t1.find? k = t.find? k := by
      intro k hk
      rw [ht1, CategoryTree.find?_update_ne _ _ _ _ hk]
    have ht1_g : t1.find? g = some (add_images src.image_ids tgt) := by
      rw [ht1, CategoryTree.find?_update_eq, hgt]
      rfl
    have ht1_s : t1.find? s = some src := by
      rw [ht1_ne s hsg, hs]
    have ht1_keys : t1.keys = t.keys := CategoryTree.keys_update t g _
    have hrem := remove_category_reduce t1 s src ht1_s
    set tD := t1.detach_from_parent s src with htD
    set snap : Finset Nat :=
      (match tD.find? s with
       | some c2 => c2.child_ids
       | none => (∅ : Finset Nat)) with hsnap
    set t2v := tD.promote_children snap with ht2v
    set tfin : CategoryTree :=
      { categories := t2v.categories.filter (fun p => p.1 != s),
        root_categories := t2v.root_categories.erase s } with htfin
    have hres : t1.remove_category s = tfin := hrem
    have hfin_s : tfin.find? s = none := by
      rw [htfin]
      show ((t2v.categories.filter (fun p => p.1 != s)).find? (fun p => p.1 == s)).map _ = _
      rw [find?_filter_self]
      rfl
    have hfin_ne : ∀ k, k ≠ s → tfin.find? k = t2v.find? k := by
      intro k hk
      rw [htfin]
      show ((t2v.categories.filter (fun p => p.1 != s)).find? (fun p => p.1 == k)).map _ = _
      rw [find?_filter_of_ne _ _ _ hk]
      rfl
    have hIs : ∀ k, (t2v.find? k).isSome = (t.find? k).isSome := by
      intro k
      rw [ht2v, promote_children_isSome, htD, detach_find?_isSome, ht1, update_isSome]
    have hIm : ∀ k, (t2v.find? k).map Category.image_ids
        = (t1.find? k).map Category.image_ids := by
      intro k
      rw [ht2v, promote_children_map_image, htD, detach_find?_image_ids]
    have hkeys2v : t2v.keys = t.keys := by
      rw [ht2v, keys_promote_children, htD, keys_detach, ht1_keys]
    have hfin_nd : tfin.keys.Nodup := by
      have hsub : (t2v.categories.filter (fun p => p.1 != s)).Sublist t2v.categories :=
        List.filter_sublist _
      have : tfin.keys.Sublist t2v.keys := List.Sublist.map _ hsub
      exact (hkeys2v ▸ hnd).sublist this
    refine ⟨tfin, by rw [hmerge, hres], ?_, hfin_nd, ?_, ?_⟩
    · apply Finset.ext
      intro x
      rw [mem_images_find? tfin hfin_nd, mem_images_find? t hnd]
      constructor
      · rintro ⟨k, v', hf, hx⟩
        have hks : k ≠ s := by
          intro h
          rw [h, hfin_s] at hf
          cases hf
        rw [hfin_ne k hks] at hf
        have himg := hIm k
        rw [hf] at himg
        cases hv1 : t1.find? k with
        | none =>
          rw [hv1] at himg
          cases himg
        | some v1 =>
          rw [hv1] at himg
          have hveq : v'.image_ids = v1.image_ids := by simpa using himg
          by_cases hkg : k = g
          · rw [hkg, ht1_g] at hv1
            have hv1e : v1 = add_images src.image_ids tgt := by
              have := hv1
              simp at this
              exact this.symm
            rw [hv1e] at hveq
            have himgs : (add_images src.image_ids tgt).image_ids
                = tgt.image_ids ∪ src.image_ids := rfl
            have hx2 : x ∈ tgt.image_ids ∪ src.image_ids := by
              rw [← himgs, ← hveq]
              exact hx
            rcases Finset.mem_union.mp hx2 with hx2 | hx2
            · exact ⟨g, tgt, hgt, hx2⟩
            · exact ⟨s, src, hs, hx2⟩
          · rw [ht1_ne k hkg] at hv1
            refine ⟨k, v1, hv1, ?_⟩
            rw [← hveq]
            exact hx
      · rintro ⟨k, v, hf, hx⟩
        by_cases hks : k = s
        · rw [hks, hs] at hf
          have hv : v = src := by
            have := hf
            simp at this
            exact this.symm
          rw [hv] at hx
          have hsome : (tfin.find? g).isSome := by
            rw [hfin_ne g (Ne.symm hsg), hIs, hgt]
            rfl
          obtain ⟨w, hw⟩ := Option.isSome_iff_exists.mp hsome
          refine ⟨g, w, hw, ?_⟩
          rw [hfin_ne g (Ne.symm hsg)] at hw
          have himg := hIm g
          rw [hw, ht1_g] at himg
          have hweq : w.image_ids = tgt.image_ids ∪ src.image_ids := by simpa using himg
          rw [hweq]
          exact Finset.mem_union_right _ hx
        · have hsome : (tfin.find? k).isSome := by
            rw [hfin_ne k hks, hIs, hf]
            rfl
          obtain ⟨w, hw⟩ := Option.isSome_iff_exists.mp hsome
          refine ⟨k, w, hw, ?_⟩
          rw [hfin_ne k hks] at hw
          have himg := hIm k
          rw [hw] at himg
          by_cases hkg : k = g
          · rw [hkg, ht1_g] at himg
            have hweq : w.image_ids = tgt.image_ids ∪ src.image_ids := by simpa using himg
            rw [hweq]
            have hv : v = tgt := by
              rw [hkg, hgt] at hf
              simpa using hf.symm
            exact Finset.mem_union_left _ (hv ▸ hx)
          · rw [ht1_ne k hkg] at himg
            rw [hf] at himg
            have hweq : w.image_ids = v.image_ids := by simpa using himg
            rw [hweq]
            exact hx
    · intro k hk
      by_cases hks : k = s
      · rw [hks, hfin_s] at hk
        cases hk
      · rw [hfin_ne k hks, hIs] at hk
        exact hk
    · intro k v' hv'
      have hks : k ≠ s := by
        intro h
        rw [h, hfin_s] at hv'
        cases hv'
      rw [hfin_ne k hks, ht2v] at hv'
      have hch := promote_children_map_child tD snap k
      rw [hv'] at hch
      cases hvD : tD.find? k with
      | none =>
        rw [hvD] at hch
        cases hch
      | some w =>
        rw [hvD] at hch
        have hweq : v'.child_ids = w.child_ids := by simpa using hch
        obtain ⟨v1, hv1, hsub⟩ := detach_find?_child_sub t1 s src k w (htD ▸ hvD)
        by_cases hkg : k = g
        · rw [hkg, ht1_g] at hv1
          have hv1e : v1 = add_images src.image_ids tgt := by simpa using hv1.symm
          refine ⟨tgt, hkg ▸ hgt, ?_⟩
          rw [hweq]
          have hc : v1.child_ids = tgt.child_ids := by
            rw [hv1e]
            rfl
          rw [← hc]
          exact hsub
        · rw [ht1_ne k hkg] at hv1
          refine ⟨v1, hv1, ?_⟩
          rw [hweq]
          exact hsub

theorem optimize_fallback_spec (t : CategoryTree) (cid : Nat) (c : Category)
    (hnd : t.keys.Nodup) (hf : t.find? cid = some c) (hc0 : c.child_ids = ∅) :
    ∃ t', t.optimize_fallback cid = .ok t'
      ∧ t'.get_all_images = t.get_all_images
      ∧ t'.keys.Nodup
      ∧ (∀ k, (t'.find? k).isSome → (t.find? k).isSome)
      ∧ (∀ k v', t'.find? k = some v' →
          ∃ v, t.find? k = some v ∧ v'.child_ids ⊆ v.child_ids) := by
  unfold CategoryTree.optimize_fallback
  by_cases hlen : 1 < t.categories.length
  · rw [if_pos hlen]
    cases hother : t.categories.find? (fun q => q.1 != cid && decide (q.2.child_ids = ∅)) with
    | none =>
      exact ⟨t, rfl, rfl, hnd, fun k h => h, fun k v' h => ⟨v', h, Finset.Subset.refl _⟩⟩
    | some q =>
      have hqm : q ∈ t.categories := List.mem_of_find?_eq_some hother
      have hq1 : (t.find? q.1).isSome := by
        rw [CategoryTree.isSome_find?_iff]
        exact List.mem_map.mpr ⟨q, hqm, rfl⟩
      exact merge_childless t cid q.1 c hnd hf hc0 hq1
  · rw [if_neg hlen]
    exact ⟨t, rfl, rfl, hnd, fun k h => h, fun k v' h => ⟨v', h, Finset.Subset.refl _⟩⟩

theorem optimize_step_spec (t : CategoryTree) (cid : Nat)
    (hnd : t.keys.Nodup)
    (hch : ∀ v, t.find? cid = some v → v.child_ids = ∅) :
    ∃ t', CategoryTree.optimize_step t cid = .ok t'
      ∧ t'.get_all_images = t.get_all_images
      ∧ t'.keys.Nodup
      ∧ (∀ k, (t'.find? k).isSome → (t.find? k).isSome)
      ∧ (∀ k v', t'.find? k = some v' →
          ∃ v, t.find? k = some v ∧ v'.child_ids ⊆ v.child_ids) := by
  cases hf : t.find? cid with
  | none =>
    refine ⟨t, ?_, rfl, hnd, fun k h => h, fun k v' h => ⟨v', h, Finset.Subset.refl _⟩⟩
    unfold CategoryTree.optimize_step
    rw [hf]
    rfl
  | some c =>
    have hc0 : c.child_ids = ∅ := hch c hf
    have hstep : CategoryTree.optimize_step t cid =
        (match c.parent_id with
         | some p =>
           if (t.find? p).isSome then t.merge_categories cid p
           else t.optimize_fallback cid
         | none => t.optimize_fallback cid) := by
      unfold CategoryTree.optimize_step
      rw [hf]
    rw [hstep]
    cases hcp : c.parent_id with
    | none => exact optimize_fallback_spec t cid c hnd hf hc0
    | some p =>
      by_cases hp : (t.find? p).isSome
      · simp only [hp, if_true]
        exact merge_childless t cid p c hnd hf hc0 hp
      · simp only [hp, Bool.false_eq_true, if_false]
        exact optimize_fallback_spec t cid c hnd hf hc0

theorem optimize_fold (l : List Nat) :
    ∀ t : CategoryTree, t.keys.Nodup →
      (∀ id ∈ l, ∀ v, t.find? id = some v → v.child_ids = ∅) →
      ∃ t', l.foldlM CategoryTree.optimize_step t = .ok t'
        ∧ t'.get_all_images = t.get_all_images := by
  induction l with
  | nil =>
    intro t _ _
    exact ⟨t, rfl, rfl⟩
  | cons a l ih =>
    intro t hnd hl
    obtain ⟨t1, hok1, himg1, hnd1, hpres1, hsub1⟩ :=
      optimize_step_spec t a hnd (hl a (List.mem_cons_self a l))
    have hl1 : ∀ id ∈ l, ∀ v, t1.find? id = some v → v.child_ids = ∅ := by
      intro id hid v hv
      obtain ⟨v0, hv0, hsub⟩ := hsub1 id v hv
      have h0 : v0.child_ids = ∅ := hl id (List.mem_cons_of_mem a hid) v0 hv0
      rw [h0] at hsub
      exact Finset.subset_empty.mp hsub
    obtain ⟨t', hok', himg'⟩ := ih t1 hnd1 hl1
    refine ⟨t', ?_, by rw [himg', himg1]⟩
    rw [List.foldlM_cons, hok1]
    exact hok'

/-- C10: `optimize_hierarchy` preserves the image union: it always
completes without an error and `get_all_images` of the result equals
`get_all_images` of the input, for every dict state (unique keys) and
every threshold — small leaf categories are merged away, but their images
were copied into the merge target first. -/
theorem optimize_hierarchy_preserves_images (t : CategoryTree) (n : Nat)
    (hnd : t.keys.Nodup) :
    (t.optimize_hierarchy n).toOption.map CategoryTree.get_all_images
      = some t.get_all_images := by
  unfold CategoryTree.optimize_hierarchy
  have hsmall : ∀ id ∈ ((t.categories.filter
        (fun p => decide (p.2.image_ids.card < n ∧ p.2.child_ids = ∅))).map (fun p => p.1)),
      ∀ v, t.find? id = some v → v.child_ids = ∅ := by
    intro id hid v hv
    obtain ⟨q, hq, hqe⟩ := List.mem_map.mp hid
    have hqm : q ∈ t.categories := (List.mem_filter.mp hq).1
    have hqc : q.2.child_ids = ∅ := (of_decide_eq_true (List.mem_filter.mp hq).2).2
    have hqf : t.find? q.1 = some q.2 := (mem_categories_iff_find? t hnd q).mp hqm
    rw [hqe] at hqf
    rw [hqf] at hv
    have : q.2 = v := by simpa using hv
    rw [← this]
    exact hqc
  obtain ⟨t', hok, himg⟩ := optimize_fold _ t hnd hsmall
  rw [hok]
  show some t'.get_all_images = some t.get_all_images
  rw [himg]

/-- C10 (witness): on a concrete parent with one empty leaf child and one
non-empty leaf child, `optimize_hierarchy 1` completes and the image union
is unchanged. -/
theorem optimize_hierarchy_preserves_images_witness :
    ((CategoryTree.mk
      [(1, { name := "R", id := 1, child_ids := {2, 3}, image_ids := {"r"} }),
       (2, { name := "E", id := 2, parent_id := some 1 }),
       (3, { name := "N", id := 3, parent_id := some 1, image_ids := {"n"} })] {1}).keys.Nodup)
    ∧ (((CategoryTree.mk
      [(1, { name := "R", id := 1, child_ids := {2, 3}, image_ids := {"r"} }),
       (2, { name := "E", id := 2, parent_id := some 1 }),
       (3, { name := "N", id := 3, parent_id := some 1, image_ids := {"n"} })]
        {1}).optimize_hierarchy 1).toOption.map CategoryTree.get_all_images
      = some (CategoryTree.mk
      [(1, { name := "R", id := 1, child_ids := {2, 3}, image_ids := {"r"} }),
       (2, { name := "E", id := 2, parent_id := some 1 }),
       (3, { name := "N", id := 3, parent_id := some 1, image_ids := {"n"} })]
        {1}).get_all_images) := by
  refine ⟨by decide, ?_⟩
  exact optimize_hierarchy_preserves_images (CategoryTree.mk
    [(1, { name := "R", id := 1, child_ids := {2, 3}, image_ids := {"r"} }),
     (2, { name := "E", id := 2, parent_id := some 1 }),
     (3, { name := "N", id := 3, parent_id := some 1, image_ids := {"n"} })] {1}) 1 (by decide)

/-! Claim C8: `get_category_hierarchy` is the sorted pre-order traversal. -/

theorem traverse_eq (t : CategoryTree) : ∀ (fuel cid depth : Nat)
    (acc : List (Category × Nat)),
    t.traverse fuel cid depth acc = acc ++ t.preorder_from fuel cid depth := by
  intro fuel
  induction fuel with
  | zero =>
    intro cid depth acc
    simp [CategoryTree.traverse, CategoryTree.preorder_from]
  | succ fuel ih =>
    have haux : ∀ (l : List Nat) (depth : Nat) (acc : List (Category × Nat)),
        l.foldl (fun a ch => t.traverse fuel ch depth a) acc
          = acc ++ l.flatMap (fun ch => t.preorder_from fuel ch depth) := by
      intro l
      induction l with
      | nil =>
        intro depth acc
        simp
      | cons a l ihl =>
        intro depth acc
        rw [List.foldl_cons, ihl, ih]
        simp
    intro cid depth acc
    cases hf : t.find? cid with
    | none => simp [CategoryTree.traverse, CategoryTree.preorder_from, hf]
    | some c =>
      simp only [CategoryTree.traverse, CategoryTree.preorder_from, hf]
      rw [haux]
      simp

theorem traverse_foldl_eq (t : CategoryTree) (fuel : Nat) (l : List Nat) (depth : Nat)
    (acc : List (Category × Nat)) :
    l.foldl (fun a ch => t.traverse fuel ch depth a) acc
      = acc ++ l.flatMap (fun ch => t.preorder_from fuel ch depth) := by
  induction l generalizing acc with
  | nil => simp
  | cons a l ihl =>
    rw [List.foldl_cons, ihl, traverse_eq]
    simp

/-- C8: the accumulator-passing traversal of the source equals the
flattened pre-order traversal written from the spec's words — roots in
ascending sorted id order, `child_ids` visited in ascending sorted order,
`(category, depth)` pairs — and, the embedding being a pure function of
the tree, calling it twice on an unmodified tree yields identical ordered
output. -/
theorem get_category_hierarchy_spec (t : CategoryTree) :
    t.get_category_hierarchy = t.hierarchy_preorder
    ∧ t.get_category_hierarchy = t.get_category_hierarchy := by
  refine ⟨?_, rfl⟩
  unfold CategoryTree.get_category_hierarchy CategoryTree.hierarchy_preorder
  rw [traverse_foldl_eq]
  simp

/-! Embedding of `services/categorization.py`. -/

/-- An analyzed image as the categorization algorithms consume it:
`path` embeds `str(image.path)`, `name` embeds `image.path.name`, and
`content_tags` the tag list (empty list = falsy, as in the source's
`hasattr`/truthiness guards). -/
structure Image where
  path : String
  name : String
  content_tags : List String := []
deriving DecidableEq

/-- Field update used when a category gains a member image. -/
def add_image (i : String) (c : Category) : Category :=
  { c with image_ids := insert i c.image_ids }

/-- Embeds `CategoryTree.add_image_to_category`: not-found error on an
unknown id, otherwise `Category.add_image` (idempotent set insert). -/
def CategoryTree.add_image_to_category (t : CategoryTree) (imgName : String) (cid : Nat) :
    Except String CategoryTree :=
  match t.find? cid with
  | none => .error "Category does not exist"
  | some _ => .ok (t.update cid (add_image imgName))

/-- Embeds `collections.Counter.update`: bump each tag's count, keeping
first-occurrence insertion order for new keys. -/
def counter_update (counts : List (String × Nat)) (xs : List String) : List (String × Nat) :=
  xs.foldl
    (fun acc tag =>
      match acc.find? (fun p => p.1 == tag) with
      | some _ => acc.map (fun p => if p.1 = tag then (p.1, p.2 + 1) else p)
      | none => acc ++ [(tag, 1)])
    counts

/-- Embeds `ContentBasedCategorization._count_tag_frequencies`. -/
def count_tag_frequencies (images : List Image) : List (String × Nat) :=
  images.foldl
    (fun acc img => if img.content_tags.isEmpty then acc else counter_update acc img.content_tags)
    []

/-- Embeds the frequent-tag set comprehension (membership is all that is
ever used of it). -/
def frequent_tags (counts : List (String × Nat)) (min_freq : Nat) : List String :=
  (counts.filter (fun p => min_freq ≤ p.2)).map (fun p => p.1)

/-- Embeds appending to a `defaultdict(list)` bucket, keeping
first-occurrence insertion order of keys. -/
def group_insert (groups : List (String × List Image)) (tag : String) (img : Image) :
    List (String × List Image) :=
  match groups.find? (fun p => p.1 == tag) with
  | some _ => groups.map (fun p => if p.1 = tag then (p.1, p.2 ++ [img]) else p)
  | none => groups ++ [(tag, [img])]

/-- Embeds the primary-tag choice: the first tag of the image that is
frequent, else the image's first tag. -/
def primary_tag (tags : List String) (freq : List String) : Option String :=
  match tags.find? (fun tg => freq.contains tg) with
  | some tg => some tg
  | none => tags.head?

/-- Embeds `ContentBasedCategorization._group_by_primary_tags` (an image
with a falsy — empty — primary tag is dropped, as by the source's
`if primary_tag:` truthiness test). -/
def group_by_primary_tags (images : List Image) (freq : List String) :
    List (String × List Image) :=
  images.foldl
    (fun groups img =>
      if img.content_tags.isEmpty then groups
      else
        match primary_tag img.content_tags freq with
        | some tg => if tg = "" then groups else group_insert groups tg img
        | none => groups)
    []

/-- Splitting a character list on spaces (the character-level semantics
of `str.split(" ")`, written to reduce inside the kernel). -/
def split_words : List Char → List (List Char)
  | [] => [[]]
  | c :: rest =>
    let ws := split_words rest
    if c = ' ' then [] :: ws
    else
      match ws with
      | [] => [[c]]
      | w :: ws2 => (c :: w) :: ws2

/-- Embeds `str.title()` on one word: first letter upper-cased, the rest
lower-cased. -/
def py_title_word (s : String) : String :=
  match s.data with
  | [] => ""
  | c :: rest => String.mk (c.toUpper :: rest.map Char.toLower)

/-- Embeds `str.lower()` (character-wise, so it reduces in the kernel). -/
def py_lower (s : String) : String :=
  String.mk (s.data.map Char.toLower)

/-- Embeds `str.title()` for the ASCII space-separated words the
algorithms feed it (see `py_title_word`). -/
def py_title (s : String) : String :=
  String.intercalate " " ((split_words s.data).map (fun w => py_title_word (String.mk w)))

/-- Embeds `ContentBasedCategorization._create_categories`: one category
(title-cased tag, fresh id from the counter standing in for `uuid4`) per
group reaching `min_category_size`, with all group images added.  (The
source's bookkeeping append to `image.categories` mutates the Image
objects, not the tree, and is not part of the tree state.) -/
def create_categories (groups : List (String × List Image)) (minSize : Nat)
    (t : CategoryTree) (ctr : Nat) : Except String (CategoryTree × Nat) :=
  groups.foldlM
    (fun (st : CategoryTree × Nat) g =>
      if g.2.length < minSize then pure st
      else do
        let cat : Category :=
          { name := py_title g.1, description := "Images containing " ++ g.1, id := st.2 }
        let t1 ← st.1.add_category cat
        let t2 ← g.2.foldlM (fun tt img => tt.add_image_to_category img.name cat.id) t1
        pure (t2, st.2 + 1))
    (t, ctr)

/-- Embeds one group's turn inside
`ContentBasedCategorization._create_subcategories`: groups below
`min_category_size * 2` are skipped; otherwise the parent is found by
case-insensitive name scan, secondary tags are counted over the group
(tags other than the primary, for images with more than one tag),
filtered by the same frequency threshold, the images are grouped by their
first frequent secondary tag, and each secondary group reaching
`min_category_size` becomes a child category named
`"<parent> - <secondary>"` attached via `add_child`. -/
def subcategorize_group (minSize minFreq : Nat) (st : CategoryTree × Nat)
    (tag : String) (group_images : List Image) : Except String (CategoryTree × Nat) :=
  if group_images.length < minSize * 2 then pure st
  else
    match st.1.categories.find? (fun p => py_lower p.2.name == py_lower tag) with
    | none => pure st
    | some pq =>
      let sec_counts := group_images.foldl
        (fun acc img =>
          if 1 < img.content_tags.length then
            counter_update acc (img.content_tags.filter (fun tg => tg != tag))
          else acc)
        []
      let freq_sec := frequent_tags sec_counts minFreq
      let sec_groups := group_images.foldl
        (fun gs img =>
          if img.content_tags.length ≤ 1 then gs
          else
            match img.content_tags.find? (fun tg => tg != tag && freq_sec.contains tg) with
            | some stg => if stg = "" then gs else group_insert gs stg img
            | none => gs)
        []
      sec_groups.foldlM
        (fun (st2 : CategoryTree × Nat) sg =>
          if sg.2.length < minSize then pure st2
          else do
            let subcat : Category :=
              { name := pq.2.name ++ " - " ++ py_title sg.1,
                description := "Images containing " ++ tag ++ " and " ++ sg.1, id := st2.2 }
            let t1 ← st2.1.add_category subcat
            let t2 ←
              match t1.find? pq.2.id with
              | some _ => t1.add_child pq.2.id subcat.id
              | none => pure t1
            let t3 ← sg.2.foldlM (fun tt img => tt.add_image_to_category img.name subcat.id) t2
            pure (t3, st2.2 + 1))
        st

/-- Embeds `ContentBasedCategorization._create_subcategories` (the loop
over all primary-tag groups). -/
def create_subcategories (groups : List (String × List Image)) (minSize minFreq : Nat)
    (t : CategoryTree) (ctr : Nat) : Except String (CategoryTree × Nat) :=
  groups.foldlM (fun st g => subcategorize_group minSize minFreq st g.1 g.2) (t, ctr)

/-- Embeds `ContentBasedCategorization.categorize`: tag counting,
frequency filter, primary-tag grouping, category creation,
subcategorization, then `optimize_hierarchy`.  `maxDepth` is accepted but
— exactly as in the source — never used.  Any raised error propagates
(the source re-wraps it as `CategorizationError`). -/
def content_categorize (minSize maxDepth minFreq : Nat) (images : List Image) :
    Except String CategoryTree := do
  let _ := maxDepth
  let counts := count_tag_frequencies images
  let freq := frequent_tags counts minFreq
  let groups := group_by_primary_tags images freq
  let st1 ← create_categories groups minSize {} 0
  let st2 ← create_subcategories groups minSize minFreq st1.1 st1.2
  st2.1.optimize_hierarchy minSize

/-! Claims C4 and C5: the subcategorization threshold and scenario 2. -/

/-- Two images whose shared primary-tag group has size 2. -/
def c4imgs : List Image :=
  [{ path := "d/1.jpg", name := "1.jpg", content_tags := ["beach", "sand"] },
   { path := "d/2.jpg", name := "2.jpg", content_tags := ["beach", "sand"] }]

/-- Category creation followed by subcategorization on the single
"beach" group of `c4imgs` with `min_category_size = 1`,
`min_tag_frequency = 1`. -/
def c4run : Except String (CategoryTree × Nat) := do
  let st1 ← create_categories [("beach", c4imgs)] 1 {} 0
  create_subcategories [("beach", c4imgs)] 1 1 st1.1 st1.2

/-- C4 (counterexample): with `min_category_size = 1` the "beach" group
of two images is below the claimed `min_category_size × 3` bound, yet the
subcategorization pass creates a child category under it (the code's
threshold is `min_category_size * 2`). -/
theorem subcategories_threshold_cex :
    group_by_primary_tags c4imgs (frequent_tags (count_tag_frequencies c4imgs) 1)
      = [("beach", c4imgs)]
    ∧ c4imgs.length < 1 * 3
    ∧ (c4run.toOption.map (fun st => st.1.categories.any (fun p => p.2.parent_id.isSome)))
      = some true := by decide

/-- C4 (amended): the subcategorization pass skips any primary-tag group
whose size is below `min_category_size * 2` — processing such a group
leaves the tree (and the id counter) unchanged, so no subcategory is
created for it. -/
theorem subcategorize_small_group_skipped (minSize minFreq : Nat)
    (st : CategoryTree × Nat) (tag : String) (imgs : List Image)
    (h : imgs.length < minSize * 2) :
    subcategorize_group minSize minFreq st tag imgs = .ok st := by
  unfold subcategorize_group
  rw [if_pos h]
  rfl

/-- C4 (witness): a group of size 0 with `min_category_size = 2` is below
the bound and is skipped unchanged. -/
theorem subcategorize_small_group_skipped_witness :
    (List.length ([] : List Image) < 2 * 2)
    ∧ subcategorize_group 2 1 ({}, 0) "beach" [] = .ok ({}, 0) :=
  ⟨by decide, subcategorize_small_group_skipped 2 1 ({}, 0) "beach" [] (by decide)⟩

/-- The three images of the spec's scenario 2. -/
def scenario2_images : List Image :=
  [{ path := "d/1.jpg", name := "1.jpg", content_tags := ["beach", "sand"] },
   { path := "d/2.jpg", name := "2.jpg", content_tags := ["beach", "sand"] },
   { path := "d/3.jpg", name := "3.jpg", content_tags := ["beach", "ocean"] }]

/-- Scenario 2 run: `min_category_size = 1`, `min_tag_frequency = 2`. -/
def scenario2 : Except String CategoryTree :=
  content_categorize 1 3 2 scenario2_images

/-- C5 (counterexample): the scenario-2 run returns a tree in which some
category has a parent — refuting the claim that no category in the
returned tree has a parent (the group of size 3 meets the code's
`min_category_size * 2` subcategorization threshold). -/
theorem scenario2_subcategory_cex :
    (scenario2.toOption.map (fun t => t.categories.any (fun p => p.2.parent_id.isSome)))
      = some true := by decide

/-- C5 (amended): the scenario-2 run returns exactly two categories: a
root "Beach" containing all three image ids, and a subcategory
"Beach - Sand" whose parent is the Beach category, containing the two
sand-tagged images. -/
theorem scenario2_actual :
    (scenario2.toOption.map (fun t => t.categories.map (fun p => (p.1, p.2.name, p.2.parent_id))))
      = some [(0, "Beach", none), (1, "Beach - Sand", some 0)]
    ∧ (scenario2.toOption.map (fun t => (t.find? 0).map (fun c =>
        (decide ("1.jpg" ∈ c.image_ids ∧ "2.jpg" ∈ c.image_ids ∧ "3.jpg" ∈ c.image_ids),
          c.image_ids.card))))
      = some (some (true, 3))
    ∧ (scenario2.toOption.map (fun t => (t.find? 1).map (fun c =>
        (decide ("1.jpg" ∈ c.image_ids ∧ "2.jpg" ∈ c.image_ids), c.image_ids.card))))
      = some (some (true, 2)) := by decide

/-! Claims C6 and C7: hierarchical clustering and the hybrid policy. -/

/-- Embeds appending to the `defaultdict(list)` cluster buckets keyed by
cluster label, keeping first-occurrence insertion order. -/
def group_insert_label (groups : List (Nat × List Image)) (label : Nat) (img : Image) :
    List (Nat × List Image) :=
  match groups.find? (fun p => p.1 == label) with
  | some _ => groups.map (fun p => if p.1 = label then (p.1, p.2 ++ [img]) else p)
  | none => groups ++ [(label, [img])]

/-- Embeds `HierarchicalClustering._extract_features`: per-image failures
(modelled by the collaborator returning `none`) are caught and skipped;
the map is keyed by `str(image.path)` in input order. -/
def extract_features (extract : Image → Option (List Int)) (images : List Image) :
    List (String × List Int) :=
  images.foldl
    (fun acc img =>
      match extract img with
      | some f => acc ++ [(img.path, f)]
      | none => acc)
    []

/-- Embeds `HierarchicalClustering._cluster_images`: the flat cluster
labels (whose length is the featured-image count, coming from
`linkage`/`fcluster` on the distance matrix — external numeric code,
abstracted into the label list) are zipped BY POSITION against the
original `images` list, exactly as the source's `images[i]`; buckets
below `min_cluster_size` are dropped, and if more than `max_clusters`
remain the largest (stable by size, descending) are kept. -/
def cluster_images (labels : List Nat) (images : List Image)
    (min_cluster_size max_clusters : Nat) : List (List Image) :=
  let groups := (labels.zip images).foldl (fun gs p => group_insert_label gs p.1 p.2) []
  let filtered := (groups.map (fun p => p.2)).filter (fun cl => min_cluster_size ≤ cl.length)
  if max_clusters < filtered.length then
    (filtered.insertionSort (fun a b => b.length ≤ a.length)).take max_clusters
  else filtered

/-- Embeds `Counter.most_common(n)`: entries sorted by count descending,
ties in first-insertion order (stable sort). -/
def most_common (counts : List (String × Nat)) (n : Nat) : List String :=
  ((counts.insertionSort (fun a b => b.2 ≤ a.2)).take n).map (fun p => p.1)

/-- Embeds `HierarchicalClustering._generate_cluster_name`: the cluster's
3 most frequent member tags title-cased and joined with " & ", or
`"Cluster <n>"` (1-based) when no tags exist. -/
def generate_cluster_name (cluster : List Image) (cluster_index : Nat) : String :=
  let tag_counts := cluster.foldl
    (fun acc img => if img.content_tags.isEmpty then acc else counter_update acc img.content_tags)
    []
  let common := most_common tag_counts 3
  if common.isEmpty then "Cluster " ++ toString (cluster_index + 1)
  else String.intercalate " & " (common.map py_title)

/-- Embeds `HierarchicalClustering._create_categories`: one flat category
per surviving cluster (fresh ids from the enumeration counter standing in
for `uuid4`), with the member images added by `path.name`. -/
def clustering_create_categories (clusters : List (List Image)) (t : CategoryTree) :
    Except String CategoryTree :=
  clusters.enum.foldlM
    (fun tt p => do
      let cat : Category :=
        { name := generate_cluster_name p.2 p.1,
          description := "Cluster of " ++ toString p.2.length ++ " similar images",
          id := p.1 }
      let t1 ← tt.add_category cat
      p.2.foldlM (fun t3 img => t3.add_image_to_category img.name cat.id) t1)
    t

/-- Embeds `HierarchicalClustering.categorize`: extract features (skipping
failures), cluster (the `linkage`+`fcluster` collaborator is abstracted as
`clusterFn`, fed the featured-image count that determines the distance
matrix dimension), and create one category per surviving cluster. -/
def hierarchical_categorize (extract : Image → Option (List Int))
    (clusterFn : Nat → List Nat) (min_cluster_size max_clusters : Nat)
    (images : List Image) : Except String CategoryTree := do
  let features := extract_features extract images
  let labels := clusterFn features.length
  let clusters := cluster_images labels images min_cluster_size max_clusters
  clustering_create_categories clusters {}

/-- Three images, the first of which fails feature extraction. -/
def c6imgs : List Image :=
  [{ path := "d/a.jpg", name := "a.jpg", content_tags := ["x"] },
   { path := "d/b.jpg", name := "b.jpg", content_tags := ["x"] },
   { path := "d/c.jpg", name := "c.jpg", content_tags := ["x"] }]

/-- The extraction collaborator that fails on `a.jpg` only. -/
def c6extract (img : Image) : Option (List Int) :=
  if img.name == "a.jpg" then none else some [1]

/-- C6: with the first image failing extraction, the two cluster labels
(over the two featured images b, c) are zipped against positions 0 and 1
of the ORIGINAL list, so the resulting single category contains the
failed image `a.jpg` together with `b.jpg`, and the successfully-featured
`c.jpg` appears nowhere — the failed image is not excluded and a
successful one is dropped. -/
theorem clustering_misindex (clusterFn : Nat → List Nat) (h : clusterFn 2 = [1, 1]) :
    (hierarchical_categorize c6extract clusterFn 1 20 c6imgs).toOption.map
      (fun t => (decide ("a.jpg" ∈ t.get_all_images ∧ "b.jpg" ∈ t.get_all_images
        ∧ "c.jpg" ∉ t.get_all_images), t.get_all_images.card))
      = some (true, 2) := by
  have h1 : hierarchical_categorize c6extract clusterFn 1 20 c6imgs
      = clustering_create_categories (cluster_images (clusterFn 2) c6imgs 1 20) {} := by
    unfold hierarchical_categorize
    rfl
  rw [h1, h]
  decide

/-- C6 (witness): the misindexing at the concrete constant clustering
function assigning both featured images one cluster. -/
theorem clustering_misindex_witness :
    ((fun _ : Nat => [1, 1]) 2 = [1, 1])
    ∧ (hierarchical_categorize c6extract (fun _ => [1, 1]) 1 20 c6imgs).toOption.map
      (fun t => (decide ("a.jpg" ∈ t.get_all_images ∧ "b.jpg" ∈ t.get_all_images
        ∧ "c.jpg" ∉ t.get_all_images), t.get_all_images.card))
      = some (true, 2) :=
  ⟨rfl, clustering_misindex (fun _ => [1, 1]) rfl⟩

/-- Embeds `HybridCategorization.categorize`: run the content-based
algorithm; keep its tree when it has at least 3 categories, otherwise
discard it and return the clustering algorithm's result on the same
images. -/
def hybrid_categorize (minSize maxDepth minFreq : Nat)
    (clusterAlg : List Image → Except String CategoryTree) (images : List Image) :
    Except String CategoryTree := do
  let ct ← content_categorize minSize maxDepth minFreq images
  if 3 ≤ ct.categories.length then pure ct
  else clusterAlg images

/-- C7: the hybrid policy returns the content-based tree unchanged exactly
when that tree has at least 3 categories; otherwise it discards it and
returns the clustering algorithm's result on the same images — never a
merge of the two. -/
theorem hybrid_categorize_spec (minSize maxDepth minFreq : Nat)
    (clusterAlg : List Image → Except String CategoryTree) (images : List Image)
    (ct : CategoryTree) (hct : content_categorize minSize maxDepth minFreq images = .ok ct) :
    (3 ≤ ct.categories.length →
      hybrid_categorize minSize maxDepth minFreq clusterAlg images = .ok ct)
    ∧ (ct.categories.length < 3 →
      hybrid_categorize minSize maxDepth minFreq clusterAlg images = clusterAlg images) := by
  constructor
  · intro h3
    unfold hybrid_categorize
    rw [hct]
    show (if 3 ≤ ct.categories.length then pure ct else clusterAlg images) = _
    rw [if_pos h3]
    rfl
  · intro h3
    unfold hybrid_categorize
    rw [hct]
    show (if 3 ≤ ct.categories.length then pure ct else clusterAlg images) = _
    rw [if_neg (by omega)]

/-- C7 (witness): two single-image tag groups yield a 2-category
content-based tree, so the hybrid run returns the clustering algorithm's
result (here the constant empty tree), not the content-based tree. -/
theorem hybrid_categorize_spec_witness :
    (content_categorize 1 3 1
        [{ path := "d/x.jpg", name := "x.jpg", content_tags := ["a"] },
         { path := "d/y.jpg", name := "y.jpg", content_tags := ["b"] }]).toOption.map
        (fun t => t.categories.length) = some 2
    ∧ hybrid_categorize 1 3 1 (fun _ => .ok {})
        [{ path := "d/x.jpg", name := "x.jpg", content_tags := ["a"] },
         { path := "d/y.jpg", name := "y.jpg", content_tags := ["b"] }]
      = .ok {} := by
  have hA : (content_categorize 1 3 1
      [{ path := "d/x.jpg", name := "x.jpg", content_tags := ["a"] },
       { path := "d/y.jpg", name := "y.jpg", content_tags := ["b"] }]).toOption.map
      (fun t => t.categories.length) = some 2 := by decide
  refine ⟨hA, ?_⟩
  cases hct : content_categorize 1 3 1
      [{ path := "d/x.jpg", name := "x.jpg", content_tags := ["a"] },
       { path := "d/y.jpg", name := "y.jpg", content_tags := ["b"] }] with
  | error e =>
    rw [hct] at hA
    exact Option.noConfusion hA
  | ok ct =>
    have hlen : ct.categories.length = 2 := by
      rw [hct] at hA
      exact Option.some.inj hA
    have h := (hybrid_categorize_spec 1 3 1 (fun _ => .ok {})
      [{ path := "d/x.jpg", name := "x.jpg", content_tags := ["a"] },
       { path := "d/y.jpg", name := "y.jpg", content_tags := ["b"] }] ct hct).2
    rw [h (by omega)]

end PhotoOrganizer
